import Mathlib

/-!
Sequential and fork-join quicksort of `main.cpp`

A shallow embedding of `qsort_sequential`, `qsort_parallel` and `qsort_std` from
`src/main.cpp`, and the properties of the two engines.

Conventions of the embedding.

* The array `elem_type* a` is a `List Int`; elements are only compared and copied, never
  computed with, so the width of `int` plays no role.
* Indices of type `size_t` are natural numbers.  For a range inside an `int` array,
  `l + 2` and `r - 1` (guarded by `l + 2 <= r`) never wrap.  For `l >= 2 ^ 64 - 2` the sum
  `l + 2` of lines 28 and 45 wraps and the embedding is not the source; every property
  below is stated for a range inside the array or for `l + 2 < 2 ^ 64`.
* Reading or writing outside the array is undefined behaviour in C++; the embedding makes
  it the explicit outcome `Err.outOfBounds`.
* Recursion is bounded by a fuel counter; `Err.outOfFuel` is the outcome of a run whose
  counter reached zero.  The entry points `qsort_sequential` and `qsort_parallel` start
  with the length of the range as fuel, which is shown to be enough.
* `cilk_spawn f(); g(); cilk_sync;` runs `f` and `g` to completion before the caller
  returns.  The order in which the two are executed is chosen by a schedule, a function
  from the caller's range to `Bool` (`true`: the spawned call runs first, which is the
  serial reading of the program).  The number of executed `cilk_spawn` statements is
  returned next to the array.
-/

namespace Cw1

/-- Outcome of a run that does not return normally. -/
inductive Err where
  | outOfBounds
  | outOfFuel
  deriving DecidableEq, Repr

/-- Read `a[i]`. -/
def readAt (a : List Int) (i : Nat) : Except Err Int :=
  match a[i]? with
  | some v => .ok v
  | none => .error .outOfBounds

/-- The call `std::swap(a[i], a[j])`. -/
def swapAt (a : List Int) (i j : Nat) : Except Err (List Int) :=
  match a[i]?, a[j]? with
  | some u, some v => .ok ((a.set i v).set j u)
  | _, _ => .error .outOfBounds

/-- Modelled from the spec: `std::partition` is a routine of the C++ standard library whose
body is not part of `src/`.  The spec describes it as a single linear, non-stable pass that
moves every element comparing less than the pivot `x` to the front of the range.  This is
the two-pointer loop used for bidirectional iterators (raw pointers are such), with the
predicate `y < x` of lines 32-34 and 54-56:

```
while (true) {
  while (true)
    if (first == last) return first;
    else if (pred(*first)) ++first;
    else break;
  --last;
  while (true)
    if (first == last) return first;
    else if (!pred(*last)) --last;
    else break;
  iter_swap(first, last);
  ++first;
}
```

`back = false` is the head of the outer loop and its first inner loop, `back = true` the
second inner loop, entered after `--last`.  Every step brings `first` and `last` one closer,
so `last - first + 1` units of fuel are enough. -/
def partition_loop (x : Int) : Nat → Bool → List Int → Nat → Nat → Except Err (List Int × Nat)
  | 0, _, _, _, _ => .error .outOfFuel
  | fuel + 1, false, a, first, last =>
    if first = last then .ok (a, first)
    else
      match readAt a first with
      | .error e => .error e
      | .ok y =>
        if y < x then partition_loop x fuel false a (first + 1) last
        else partition_loop x fuel true a first (last - 1)
  | fuel + 1, true, a, first, last =>
    if first = last then .ok (a, first)
    else
      match readAt a last with
      | .error e => .error e
      | .ok y =>
        if ¬ (y < x) then partition_loop x fuel true a first (last - 1)
        else
          match swapAt a first last with
          | .error e => .error e
          | .ok a1 => partition_loop x fuel false a1 (first + 1) last

/-- The call `std::partition(a + l, a + r, [x](y) { return y < x; })`: the rearranged array
and the index `ml - a` of the returned iterator. -/
def partition (a : List Int) (l r : Nat) (x : Int) : Except Err (List Int × Nat) :=
  partition_loop x (r - l + 1) false a l r

/-- Lines 31-35 of `qsort_sequential`, identically lines 53-57 of `qsort_parallel`: take the
pivot `x = a[r - 1]`, partition `[l, r)` by `y < x`, swap `a[r - 1]` with `*ml`.  Returns the
array and the split point `ml - a`. -/
def pivot_step (a : List Int) (l r : Nat) : Except Err (List Int × Nat) :=
  match readAt a (r - 1) with
  | .error e => .error e
  | .ok x =>
    match partition a l r x with
    | .error e => .error e
    | .ok (a1, ml) =>
      match swapAt a1 (r - 1) ml with
      | .error e => .error e
      | .ok a2 => .ok (a2, ml)

/-- The function `qsort_sequential(a, l, r)` (lines 26-40) with a bound on the recursion
depth.  The test `l + 2 > r` is taken in the natural numbers: it is the `size_t` test of
line 28 for `l + 2 < 2 ^ 64`, which every range inside an `int` array satisfies, and the
properties of the function are stated for such `l` only. -/
def qsort_sequential_fuel : Nat → List Int → Nat → Nat → Except Err (List Int)
  | fuel, a, l, r =>
    if l + 2 > r then .ok a
    else
      match fuel with
      | 0 => .error .outOfFuel
      | fuel + 1 =>
        match pivot_step a l r with
        | .error e => .error e
        | .ok (a2, ml) =>
          match qsort_sequential_fuel fuel a2 l ml with
          | .error e => .error e
          | .ok a3 => qsort_sequential_fuel fuel a3 (ml + 1) r

/-- The function `qsort_sequential(a, l, r)`. -/
def qsort_sequential (a : List Int) (l r : Nat) : Except Err (List Int) :=
  qsort_sequential_fuel (r - l) a l r

/-- The function `qsort_parallel(a, l, r)` (lines 43-63) with a bound on the recursion
depth.  `block_size` is the global of line 42.  `sched l r` tells whether the call spawned
at line 60 runs before the call of line 61.  The second component counts the executed
`cilk_spawn` statements of the whole call tree.  As in `qsort_sequential_fuel`, the test
`l + 2 > r` is the `size_t` test of line 45 for `l + 2 < 2 ^ 64`. -/
def qsort_parallel_fuel (block_size : Nat) (sched : Nat → Nat → Bool) :
    Nat → List Int → Nat → Nat → Except Err (List Int × Nat)
  | fuel, a, l, r =>
    if l + 2 > r then .ok (a, 0)
    else if r - l < block_size then
      (qsort_sequential a l r).map fun a1 => (a1, 0)
    else
      match fuel with
      | 0 => .error .outOfFuel
      | fuel + 1 =>
        match pivot_step a l r with
        | .error e => .error e
        | .ok (a2, ml) =>
          if sched l r then
            match qsort_parallel_fuel block_size sched fuel a2 l ml with
            | .error e => .error e
            | .ok (a3, s1) =>
              match qsort_parallel_fuel block_size sched fuel a3 (ml + 1) r with
              | .error e => .error e
              | .ok (a4, s2) => .ok (a4, 1 + s1 + s2)
          else
            match qsort_parallel_fuel block_size sched fuel a2 (ml + 1) r with
            | .error e => .error e
            | .ok (a3, s2) =>
              match qsort_parallel_fuel block_size sched fuel a3 l ml with
              | .error e => .error e
              | .ok (a4, s1) => .ok (a4, 1 + s1 + s2)

/-- The function `qsort_parallel(a, l, r)`. -/
def qsort_parallel (block_size : Nat) (sched : Nat → Nat → Bool) (a : List Int) (l r : Nat) :
    Except Err (List Int × Nat) :=
  qsort_parallel_fuel block_size sched (r - l) a l r

/-- The schedule of the serial reading: the spawned call always runs first. -/
def serial : Nat → Nat → Bool := fun _ _ => true

/-- The elements at indices `l .. r - 1`. -/
def slice (a : List Int) (l r : Nat) : List Int := (a.take r).drop l

/-- Modelled from the spec: `std::sort` is a routine of the C++ standard library whose body
is not part of `src/`; the spec calls it the trusted reference sort.  `qsort_std(a, l, r)`
(lines 65-67) puts the elements at `l .. r - 1` into non-descending order and leaves the
rest of the array alone. -/
def qsort_std (a : List Int) (l r : Nat) : Except Err (List Int) :=
  if l ≤ r ∧ r ≤ a.length then
    .ok (a.take l ++ ((slice a l r).insertionSort (· ≤ ·) ++ a.drop r))
  else .error .outOfBounds

/-- The partition step in the words of the spec (section 4.1, steps 2 to 4): the pivot is
the value at `r - 1`; `[l, r - 1)` is partitioned, the position of the pivot being left out
of the scan; the pivot is then swapped into the boundary position.  To be compared with
`pivot_step`, which hands `[l, r)` to `std::partition` as the source does. -/
def pivot_step_excluding_pivot (a : List Int) (l r : Nat) : Except Err (List Int × Nat) :=
  match readAt a (r - 1) with
  | .error e => .error e
  | .ok x =>
    match partition a l (r - 1) x with
    | .error e => .error e
    | .ok (a1, ml) =>
      match swapAt a1 (r - 1) ml with
      | .error e => .error e
      | .ok a2 => .ok (a2, ml)

/-- The ranges `(l, r)` of all the calls of `qsort_sequential` made in the run of
`qsort_sequential(a, l, r)`, the call itself first: the control flow of
`qsort_sequential_fuel`, each call recording its range. -/
def qsort_sequential_ranges : Nat → List Int → Nat → Nat → List (Nat × Nat)
  | fuel, a, l, r =>
    (l, r) ::
      if l + 2 > r then []
      else
        match fuel with
        | 0 => []
        | fuel + 1 =>
          match pivot_step a l r with
          | .error _ => []
          | .ok (a2, ml) =>
            qsort_sequential_ranges fuel a2 l ml ++
              match qsort_sequential_fuel fuel a2 l ml with
              | .error _ => []
              | .ok a3 => qsort_sequential_ranges fuel a3 (ml + 1) r

/-- The ranges `(l, r)` of all the calls of `qsort_parallel` and `qsort_sequential` made in
the run of `qsort_parallel(a, l, r)`, the call itself first: the control flow of
`qsort_parallel_fuel`, each call recording its range. -/
def qsort_parallel_ranges (block_size : Nat) (sched : Nat → Nat → Bool) :
    Nat → List Int → Nat → Nat → List (Nat × Nat)
  | fuel, a, l, r =>
    (l, r) ::
      if l + 2 > r then []
      else if r - l < block_size then qsort_sequential_ranges (r - l) a l r
      else
        match fuel with
        | 0 => []
        | fuel + 1 =>
          match pivot_step a l r with
          | .error _ => []
          | .ok (a2, ml) =>
            if sched l r then
              qsort_parallel_ranges block_size sched fuel a2 l ml ++
                match qsort_parallel_fuel block_size sched fuel a2 l ml with
                | .error _ => []
                | .ok (a3, _) => qsort_parallel_ranges block_size sched fuel a3 (ml + 1) r
            else
              qsort_parallel_ranges block_size sched fuel a2 (ml + 1) r ++
                match qsort_parallel_fuel block_size sched fuel a2 (ml + 1) r with
                | .error _ => []
                | .ok (a3, _) => qsort_parallel_ranges block_size sched fuel a3 l ml

/-- The strictly ascending array `0, 1, ..., n - 1`. -/
def ascending (n : Nat) : List Int := (List.range n).map Int.ofNat

/-- The call `bench_micros(a, n, qsort)` (lines 72-86): the first `n` elements of `a` are
copied into a fresh array, `qsort(a_copy, 0, n)` is run on it and the array is returned.
The measured time is not modelled. -/
def bench_micros (a : List Int) (n : Nat)
    (qsort : List Int → Nat → Nat → Except Err (List Int)) : Except Err (List Int) :=
  if n ≤ a.length then qsort (a.take n) 0 n else .error .outOfBounds

/-- The test of a comparison loop of `main` (lines 111-115 and 117-121): some `k < n` has
`x[k] != y[k]`, which sends the program to `exit(1)`. -/
def mismatch (x y : List Int) (n : Nat) : Bool :=
  (List.range n).any fun k => x[k]? != y[k]?

/-- How one attempt of `main` ends. -/
inductive Verdict where
  | pass
  | errorSeq
  | errorPar
  deriving DecidableEq, Repr

/-- One attempt of `main` (lines 100-121) on the generated array `a`, with `n` its length:
the three sorts on copies of `a`, then the two comparison loops. -/
def attempt (block_size : Nat) (sched : Nat → Nat → Bool) (a : List Int) : Except Err Verdict :=
  match bench_micros a a.length qsort_std with
  | .error e => .error e
  | .ok std_array =>
    match bench_micros a a.length qsort_sequential with
    | .error e => .error e
    | .ok seq_array =>
      match bench_micros a a.length
          (fun c l r => (qsort_parallel block_size sched c l r).map Prod.fst) with
      | .error e => .error e
      | .ok par_array =>
        if mismatch seq_array std_array a.length then .ok .errorSeq
        else if mismatch par_array std_array a.length then .ok .errorPar
        else .ok .pass

/-- The array in which the range `l .. r - 1` of `a` is replaced by its sorted
rearrangement. -/
def sortedRange (a : List Int) (l r : Nat) : List Int :=
  a.take l ++ ((slice a l r).insertionSort (· ≤ ·) ++ a.drop r)

/-- What a run of the partition loop over the unexamined part `U` returns: the elements of
`U` rearranged into `L ++ R`, all of `L` below the pivot and none of `R`, and the index of
the first element of `R`. -/
def PartitionPost (x : Int) (U Pre Post : List Int) (res : Except Err (List Int × Nat)) : Prop :=
  ∃ L R, res = .ok (Pre ++ (L ++ (R ++ Post)), Pre.length + L.length)
    ∧ (L ++ R).Perm U ∧ (∀ y ∈ L, y < x) ∧ (∀ y ∈ R, ¬ y < x)

/-- How the number `s` of tasks spawned on a range of length `m` relates to the block size:
none below the threshold, at least one from the threshold on, and never more than
`m - block_size + 1`. -/
def SpawnBound (block_size m s : Nat) : Prop :=
  (m < 2 ∨ m < block_size → s = 0) ∧ (2 ≤ m → block_size ≤ m → 1 ≤ s)
    ∧ (1 ≤ block_size → block_size ≤ m → s + block_size ≤ m + 1)

/-! ## Array accesses on a decomposed array -/

theorem getElem?_mid (P S : List Int) (y : Int) : (P ++ y :: S)[P.length]? = some y := by
  induction P with
  | nil => simp
  | cons p P ih => simpa using ih

theorem set_mid (P S : List Int) (y z : Int) : (P ++ y :: S).set P.length z = P ++ z :: S := by
  induction P with
  | nil => rfl
  | cons p P ih => simp [ih]

theorem readAt_mid (P S : List Int) (y : Int) (i : Nat) (hi : i = P.length) :
    readAt (P ++ y :: S) i = .ok y := by
  subst hi
  unfold readAt
  rw [getElem?_mid]

theorem swapAt_self (P S : List Int) (y : Int) (i j : Nat) (hi : i = P.length)
    (hj : j = P.length) : swapAt (P ++ y :: S) i j = .ok (P ++ y :: S) := by
  subst hi; subst hj
  unfold swapAt
  rw [getElem?_mid]
  simp only [set_mid]

theorem swapAt_mid (P W S : List Int) (u v : Int) (i j : Nat) (hi : i = P.length)
    (hj : j = P.length + W.length + 1) :
    swapAt (P ++ u :: (W ++ v :: S)) i j = .ok (P ++ v :: (W ++ u :: S)) := by
  subst hi; subst hj
  have hlen : P.length + W.length + 1 = (P ++ u :: W).length := by simp; omega
  have hlen2 : P.length + W.length + 1 = (P ++ v :: W).length := by simp; omega
  have h1 : (P ++ u :: (W ++ v :: S))[P.length + W.length + 1]? = some v := by
    have := getElem?_mid (P ++ u :: W) S v
    rw [hlen]
    simpa using this
  have h2 : ((P ++ v :: (W ++ v :: S)).set (P.length + W.length + 1) u)
      = P ++ v :: (W ++ u :: S) := by
    have := set_mid (P ++ v :: W) S v u
    rw [hlen2]
    simp [this]
  unfold swapAt
  rw [getElem?_mid, h1]
  simp only [set_mid]
  rw [h2]

theorem swapAt_mid_rev (P W S : List Int) (u v : Int) (i j : Nat) (hi : i = P.length)
    (hj : j = P.length + W.length + 1) :
    swapAt (P ++ u :: (W ++ v :: S)) j i = .ok (P ++ v :: (W ++ u :: S)) := by
  subst hi; subst hj
  have hlen : P.length + W.length + 1 = (P ++ u :: W).length := by simp; omega
  have h1 : (P ++ u :: (W ++ v :: S))[P.length + W.length + 1]? = some v := by
    have := getElem?_mid (P ++ u :: W) S v
    rw [hlen]
    simpa using this
  have h2 : ((P ++ u :: (W ++ v :: S)).set (P.length + W.length + 1) u)
      = P ++ u :: (W ++ u :: S) := by
    have := set_mid (P ++ u :: W) S v u
    rw [hlen]
    simp [this]
  unfold swapAt
  rw [getElem?_mid, h1]
  simp only [h2, set_mid]

/-! ## The partition loop -/

theorem partition_loop_spec (x : Int) : ∀ n : Nat,
    (∀ (U Pre Post a : List Int) (first last : Nat), U.length < n →
      a = Pre ++ (U ++ Post) → first = Pre.length → last = Pre.length + U.length →
      PartitionPost x U Pre Post (partition_loop x n false a first last)) ∧
    (∀ (u : Int) (W Pre Post a : List Int) (first last : Nat), ¬ u < x → W.length < n →
      a = Pre ++ (u :: W ++ Post) → first = Pre.length → last = Pre.length + W.length →
      PartitionPost x (u :: W) Pre Post (partition_loop x n true a first last)) := by
  intro n
  induction n with
  | zero => exact ⟨fun _ _ _ _ _ _ h => absurd h (Nat.not_lt_zero _),
      fun _ _ _ _ _ _ _ _ h => absurd h (Nat.not_lt_zero _)⟩
  | succ n ih =>
    obtain ⟨ihF, ihT⟩ := ih
    constructor
    · intro U Pre Post a first last hn ha hf hl
      cases U with
      | nil =>
        refine ⟨[], [], ?_, by simp, by simp, by simp⟩
        subst ha; subst hf; subst hl
        simp [partition_loop]
      | cons u W =>
        have hne : first ≠ last := by subst hf; subst hl; simp
        have hrd : readAt a first = .ok u := by
          subst ha; exact readAt_mid Pre (W ++ Post) u first hf
        simp only [List.length_cons] at hn hl
        by_cases hux : u < x
        · obtain ⟨L, R, hres, hperm, hL, hR⟩ :=
            ihF W (Pre ++ [u]) Post a (first + 1) last (by omega) (by subst ha; simp)
              (by subst hf; simp) (by subst hl; simp; omega)
          refine ⟨u :: L, R, ?_, ?_, ?_, hR⟩
          · simp only [partition_loop, hne, if_false, hrd, hux, if_true, hres]
            simp [Nat.add_assoc, Nat.add_comm 1]
          · simpa using hperm
          · intro y hy
            rcases List.mem_cons.1 hy with rfl | hy
            · exact hux
            · exact hL y hy
        · obtain ⟨L, R, hres, hperm, hL, hR⟩ :=
            ihT u W Pre Post a first (last - 1) hux (by omega) ha hf (by subst hl; omega)
          refine ⟨L, R, ?_, hperm, hL, hR⟩
          simp only [partition_loop, hne, if_false, hrd, hux, hres]
    · intro u W Pre Post a first last hux hn ha hf hl
      rcases List.eq_nil_or_concat W with rfl | ⟨W2, v, rfl⟩
      · refine ⟨[], [u], ?_, by simp, by simp, by simpa using hux⟩
        subst ha; subst hf; subst hl
        simp [partition_loop]
      · simp only [List.concat_eq_append, List.length_append, List.length_singleton] at hn hl
        have hne : first ≠ last := by subst hf; subst hl; omega
        have ha2 : a = (Pre ++ u :: W2) ++ v :: Post := by subst ha; simp
        have hrd : readAt a last = .ok v := by
          rw [ha2]; exact readAt_mid _ _ _ _ (by subst hl; simp)
        by_cases hvx : v < x
        · have hsw : swapAt a first last = .ok (Pre ++ v :: (W2 ++ u :: Post)) := by
            subst ha
            have := swapAt_mid Pre W2 Post u v first last hf (by omega)
            simpa using this
          obtain ⟨L, R, hres, hperm, hL, hR⟩ :=
            ihF W2 (Pre ++ [v]) (u :: Post) (Pre ++ v :: (W2 ++ u :: Post)) (first + 1) last
              (by omega) (by simp) (by subst hf; simp) (by subst hl; simp; omega)
          refine ⟨v :: L, R ++ [u], ?_, ?_, ?_, ?_⟩
          · simp only [partition_loop, hne, if_false, hrd, hvx, not_true_eq_false, hsw, hres]
            simp [Nat.add_assoc, Nat.add_comm 1]
          · have h1 : (v :: L ++ (R ++ [u])).Perm (v :: u :: (L ++ R)) := by
              have : (L ++ (R ++ [u])).Perm (u :: (L ++ R)) := by
                rw [← List.append_assoc]
                exact (List.perm_append_comm).trans (by simp)
              simpa using this.cons v
            have h2 : (v :: u :: (L ++ R)).Perm (u :: (W2 ++ [v])) := by
              have : (u :: v :: W2).Perm (u :: (W2 ++ [v])) :=
                (@List.perm_append_comm _ [v] W2).cons u
              exact ((List.Perm.swap u v _).trans ((hperm.cons v).cons u)).trans this
            simpa using h1.trans h2
          · intro y hy
            rcases List.mem_cons.1 hy with rfl | hy
            · exact hvx
            · exact hL y hy
          · intro y hy
            rcases List.mem_append.1 hy with hy | hy
            · exact hR y hy
            · simp only [List.mem_singleton] at hy; subst hy; exact hux
        · obtain ⟨L, R, hres, hperm, hL, hR⟩ :=
            ihT u W2 Pre (v :: Post) a first (last - 1) hux (by omega) (by subst ha; simp) hf
              (by subst hl; omega)
          refine ⟨L, R ++ [v], ?_, ?_, hL, ?_⟩
          · simp only [partition_loop, hne, if_false, hrd, hvx, not_false_eq_true, if_true, hres]
            simp
          · have : (L ++ (R ++ [v])).Perm (u :: W2 ++ [v]) := by
              rw [← List.append_assoc]
              exact hperm.append_right [v]
            simpa using this
          · intro y hy
            rcases List.mem_append.1 hy with hy | hy
            · exact hR y hy
            · simp only [List.mem_singleton] at hy; subst hy; exact hvx

theorem partition_loop_front (x : Int) (n : Nat) (a : List Int) (first last : Nat) :
    partition_loop x (n + 1) false a first last =
      if first = last then .ok (a, first)
      else
        match readAt a first with
        | .error e => .error e
        | .ok y =>
          if y < x then partition_loop x n false a (first + 1) last
          else partition_loop x n true a first (last - 1) := rfl

theorem partition_loop_back (x : Int) (n : Nat) (a : List Int) (first last : Nat) :
    partition_loop x (n + 1) true a first last =
      if first = last then .ok (a, first)
      else
        match readAt a last with
        | .error e => .error e
        | .ok y =>
          if ¬ (y < x) then partition_loop x n true a first (last - 1)
          else
            match swapAt a first last with
            | .error e => .error e
            | .ok a1 => partition_loop x n false a1 (first + 1) last := rfl

/-- A last element that is not below the pivot is stepped over by the second inner loop
and never moved: partitioning `[first, last + 1)` is partitioning `[first, last)`. -/
theorem partition_loop_skip_last (x z : Int) (hz : ¬ z < x) :
    ∀ (U Pre Post a : List Int) (first last n : Nat), U.length < n →
      a = Pre ++ (U ++ z :: Post) → first = Pre.length → last = Pre.length + U.length →
      partition_loop x (n + 1) false a first (last + 1) = partition_loop x n false a first last := by
  intro U
  induction U with
  | nil =>
    intro Pre Post a first last n hn ha hf hl
    obtain ⟨m, rfl⟩ : ∃ m, n = m + 1 := ⟨n - 1, by omega⟩
    have hrd : readAt a first = .ok z := by
      subst ha; exact readAt_mid Pre Post z first hf
    have hfl : first = last := by subst hf; subst hl; simp
    subst hfl
    simp [partition_loop, hrd, hz]
  | cons u W ih =>
    intro Pre Post a first last n hn ha hf hl
    simp only [List.length_cons] at hn hl
    obtain ⟨k, rfl⟩ : ∃ k, n = k + 2 := ⟨n - 2, by omega⟩
    have hne : first ≠ last := by omega
    have hne1 : first ≠ last + 1 := by omega
    have hrd : readAt a first = .ok u := by
      subst ha; exact readAt_mid Pre _ u first hf
    by_cases hux : u < x
    · have := ih (Pre ++ [u]) Post a (first + 1) last (k + 1) (by omega) (by subst ha; simp)
        (by subst hf; simp) (by subst hl; simp; omega)
      rw [partition_loop_front x (k + 2) a first (last + 1),
        partition_loop_front x (k + 1) a first last]
      simp only [hne, hne1, if_false, hrd, hux, if_true]
      exact this
    · have hrdz : readAt a (last + 1 - 1) = .ok z := by
        have ha2 : a = (Pre ++ u :: W) ++ z :: Post := by subst ha; simp
        rw [ha2]; exact readAt_mid _ _ _ _ (by subst hl; simp)
      have hne2 : first ≠ last + 1 - 1 := by omega
      rw [partition_loop_front x (k + 2) a first (last + 1),
        partition_loop_front x (k + 1) a first last]
      simp only [hne, hne1, if_false, hrd, hux]
      rw [partition_loop_back x (k + 1) a first (last + 1 - 1)]
      simp only [hne2, if_false, hrdz, hz, not_false_eq_true, if_true]
      rfl

/-- What lines 31-35 (53-57) do on the range holding `M ++ [x]`: the pivot `x` ends at the
split point, with `L`, the elements below it, before and `R`, the others, behind. -/
theorem pivot_step_spec (x : Int) (M P Q a : List Int) (l r : Nat)
    (ha : a = P ++ (M ++ x :: Q)) (hl : l = P.length) (hr : r = P.length + M.length + 1) :
    ∃ L R, pivot_step a l r = .ok (P ++ (L ++ x :: (R ++ Q)), P.length + L.length)
      ∧ (L ++ R).Perm M ∧ (∀ y ∈ L, y < x) ∧ (∀ y ∈ R, ¬ y < x) := by
  have hrd : readAt a (r - 1) = .ok x := by
    have ha2 : a = (P ++ M) ++ x :: Q := by subst ha; simp
    rw [ha2]; exact readAt_mid _ _ _ _ (by subst hr; simp)
  have hpart : partition a l r x = partition_loop x (M.length + 1) false a l (P.length + M.length) := by
    have hfuel : r - l + 1 = (M.length + 1) + 1 := by omega
    unfold partition
    rw [hfuel, hr]
    exact partition_loop_skip_last x x (lt_irrefl x) M P Q a l (P.length + M.length)
      (M.length + 1) (by omega) ha hl rfl
  obtain ⟨L, R, hres, hperm, hL, hR⟩ :=
    (partition_loop_spec x (M.length + 1)).1 M P (x :: Q) a l (P.length + M.length)
      (by omega) ha hl rfl
  have hlen : L.length + R.length = M.length := by
    simpa using hperm.length_eq
  cases R with
  | nil =>
    refine ⟨L, [], ?_, hperm, hL, hR⟩
    have hsw : swapAt (P ++ (L ++ ([] ++ x :: Q))) (r - 1) (P.length + L.length)
        = .ok (P ++ (L ++ x :: ([] ++ Q))) := by
      have := swapAt_self (P ++ L) Q x (r - 1) (P.length + L.length)
        (by simp at hlen; simp; omega) (by simp)
      simpa using this
    simp only [pivot_step, hrd, hpart, hres, hsw]
  | cons h T =>
    refine ⟨L, T ++ [h], ?_, ?_, hL, ?_⟩
    · have hsw : swapAt (P ++ (L ++ (h :: T ++ x :: Q))) (r - 1) (P.length + L.length)
          = .ok (P ++ (L ++ x :: (T ++ [h] ++ Q))) := by
        have := swapAt_mid_rev (P ++ L) T Q h x (P.length + L.length) (r - 1) (by simp)
          (by simp at hlen; simp; omega)
        simpa using this
      simp only [pivot_step, hrd, hpart, hres, hsw]
    · have : (L ++ (T ++ [h])).Perm (L ++ h :: T) :=
        (@List.perm_append_comm _ T [h]).append_left L
      exact this.trans hperm
    · intro y hy
      apply hR
      simp only [List.mem_append, List.mem_singleton, List.mem_cons] at hy ⊢
      tauto

/-! ## The two engines compute the sorted rearrangement of the range -/

theorem sort_glue (x : Int) (L R M : List Int) (hperm : (L ++ R).Perm M)
    (hL : ∀ y ∈ L, y < x) (hR : ∀ y ∈ R, ¬ y < x) :
    L.insertionSort (· ≤ ·) ++ x :: R.insertionSort (· ≤ ·)
      = (M ++ [x]).insertionSort (· ≤ ·) := by
  apply List.eq_of_perm_of_sorted (r := (· ≤ ·))
  · have h1 : (L.insertionSort (· ≤ ·) ++ x :: R.insertionSort (· ≤ ·)).Perm (L ++ x :: R) :=
      (List.perm_insertionSort _ L).append ((List.perm_insertionSort _ R).cons x)
    have h2 : (L ++ x :: R).Perm (M ++ [x]) :=
      (List.perm_middle.trans (hperm.cons x)).trans (@List.perm_append_comm _ [x] M)
    exact (h1.trans h2).trans (List.perm_insertionSort _ _).symm
  · have hsL := List.sorted_insertionSort (· ≤ · : Int → Int → Prop) L
    have hsR := List.sorted_insertionSort (· ≤ · : Int → Int → Prop) R
    unfold List.Sorted at hsL hsR ⊢
    rw [List.pairwise_append]
    refine ⟨hsL, ?_, ?_⟩
    · rw [List.pairwise_cons]
      refine ⟨?_, hsR⟩
      intro y hy
      exact not_lt.1 (hR y ((List.perm_insertionSort _ R).mem_iff.1 hy))
    · intro y hy z hz
      have hyx : y < x := hL y ((List.perm_insertionSort _ L).mem_iff.1 hy)
      rcases List.mem_cons.1 hz with rfl | hz
      · exact le_of_lt hyx
      · exact le_of_lt (lt_of_lt_of_le hyx
          (not_lt.1 (hR z ((List.perm_insertionSort _ R).mem_iff.1 hz))))
  · exact List.sorted_insertionSort _ _

theorem sort_short (M : List Int) (h : M.length < 2) : M.insertionSort (· ≤ ·) = M := by
  match M, h with
  | [], _ => rfl
  | [_], _ => rfl

theorem qsort_sequential_fuel_base (n : Nat) (a : List Int) (l r : Nat) (h : l + 2 > r) :
    qsort_sequential_fuel n a l r = .ok a := by
  unfold qsort_sequential_fuel
  simp [h]

theorem qsort_sequential_fuel_step (n : Nat) (a : List Int) (l r : Nat) (h : ¬ l + 2 > r) :
    qsort_sequential_fuel (n + 1) a l r =
      match pivot_step a l r with
      | .error e => .error e
      | .ok (a2, ml) =>
        match qsort_sequential_fuel n a2 l ml with
        | .error e => .error e
        | .ok a3 => qsort_sequential_fuel n a3 (ml + 1) r := by
  rw [qsort_sequential_fuel]
  simp only [h, if_false]

/-- With fuel at least the length of the range, `qsort_sequential` returns the array with
the range replaced by its sorted rearrangement. -/
theorem qsort_sequential_fuel_spec : ∀ (n : Nat) (M P Q a : List Int) (l r : Nat),
    M.length ≤ n → a = P ++ (M ++ Q) → l = P.length → r = P.length + M.length →
    qsort_sequential_fuel n a l r = .ok (P ++ (M.insertionSort (· ≤ ·) ++ Q)) := by
  intro n
  induction n with
  | zero =>
    intro M P Q a l r hn ha hl hr
    have hM : M = [] := List.length_eq_zero.1 (Nat.le_zero.1 hn)
    subst hM
    rw [qsort_sequential_fuel_base 0 a l r (by subst hl; subst hr; simp), ha]
    rfl
  | succ n ih =>
    intro M P Q a l r hn ha hl hr
    by_cases hshort : M.length < 2
    · rw [qsort_sequential_fuel_base _ a l r (by omega), ha, sort_short M hshort]
    · rcases List.eq_nil_or_concat M with rfl | ⟨M2, x, rfl⟩
      · simp at hshort
      · simp only [List.concat_eq_append, List.length_append, List.length_singleton] at hn hr hshort
        obtain ⟨L, R, hstep, hperm, hL, hR⟩ :=
          pivot_step_spec x M2 P Q a l r (by subst ha; simp) hl (by omega)
        have hlen : L.length + R.length = M2.length := by simpa using hperm.length_eq
        have h1 := ih L P (x :: (R ++ Q)) (P ++ (L ++ x :: (R ++ Q))) l (P.length + L.length)
          (by omega) rfl hl rfl
        have h2 := ih R (P ++ (L.insertionSort (· ≤ ·) ++ [x])) Q
          (P ++ (L.insertionSort (· ≤ ·) ++ x :: (R ++ Q))) (P.length + L.length + 1) r
          (by omega) (by simp) (by simp [List.length_insertionSort]; omega)
          (by simp [List.length_insertionSort]; omega)
        rw [qsort_sequential_fuel_step n a l r (by omega)]
        simp only [hstep, h1, h2]
        rw [List.concat_eq_append, ← sort_glue x L R M2 hperm hL hR]
        simp

theorem qsort_parallel_fuel_base (bs : Nat) (sched : Nat → Nat → Bool) (n : Nat)
    (a : List Int) (l r : Nat) (h : l + 2 > r) :
    qsort_parallel_fuel bs sched n a l r = .ok (a, 0) := by
  unfold qsort_parallel_fuel
  simp [h]

theorem qsort_parallel_fuel_small (bs : Nat) (sched : Nat → Nat → Bool) (n : Nat)
    (a : List Int) (l r : Nat) (h : ¬ l + 2 > r) (hb : r - l < bs) :
    qsort_parallel_fuel bs sched n a l r =
      (qsort_sequential a l r).map fun a1 => (a1, 0) := by
  unfold qsort_parallel_fuel
  simp only [h, hb, if_false, if_true]

theorem qsort_parallel_fuel_step (bs : Nat) (sched : Nat → Nat → Bool) (n : Nat)
    (a : List Int) (l r : Nat) (h : ¬ l + 2 > r) (hb : ¬ r - l < bs) :
    qsort_parallel_fuel bs sched (n + 1) a l r =
      match pivot_step a l r with
      | .error e => .error e
      | .ok (a2, ml) =>
        if sched l r then
          match qsort_parallel_fuel bs sched n a2 l ml with
          | .error e => .error e
          | .ok (a3, s1) =>
            match qsort_parallel_fuel bs sched n a3 (ml + 1) r with
            | .error e => .error e
            | .ok (a4, s2) => .ok (a4, 1 + s1 + s2)
        else
          match qsort_parallel_fuel bs sched n a2 (ml + 1) r with
          | .error e => .error e
          | .ok (a3, s2) =>
            match qsort_parallel_fuel bs sched n a3 l ml with
            | .error e => .error e
            | .ok (a4, s1) => .ok (a4, 1 + s1 + s2) := by
  rw [qsort_parallel_fuel]
  simp only [h, hb, if_false]

/-- With fuel at least the length of the range, `qsort_parallel` returns, for every block
size and every schedule, the array with the range replaced by its sorted rearrangement. -/
theorem qsort_parallel_fuel_spec (bs : Nat) (sched : Nat → Nat → Bool) :
    ∀ (n : Nat) (M P Q a : List Int) (l r : Nat),
    M.length ≤ n → a = P ++ (M ++ Q) → l = P.length → r = P.length + M.length →
    ∃ s, qsort_parallel_fuel bs sched n a l r = .ok (P ++ (M.insertionSort (· ≤ ·) ++ Q), s)
      ∧ SpawnBound bs M.length s := by
  intro n
  induction n with
  | zero =>
    intro M P Q a l r hn ha hl hr
    have hM : M = [] := List.length_eq_zero.1 (Nat.le_zero.1 hn)
    subst hM
    refine ⟨0, ?_, by unfold SpawnBound; simp; omega⟩
    rw [qsort_parallel_fuel_base bs sched 0 a l r (by subst hl; subst hr; simp), ha]
    rfl
  | succ n ih =>
    intro M P Q a l r hn ha hl hr
    by_cases hshort : M.length < 2
    · exact ⟨0, by rw [qsort_parallel_fuel_base _ _ _ a l r (by omega), ha, sort_short M hshort],
        by unfold SpawnBound; omega⟩
    · by_cases hb : r - l < bs
      · refine ⟨0, ?_, by unfold SpawnBound; omega⟩
        rw [qsort_parallel_fuel_small bs sched _ a l r (by omega) hb]
        have := qsort_sequential_fuel_spec (r - l) M P Q a l r (by omega) ha hl hr
        unfold qsort_sequential
        rw [this]
        rfl
      · rcases List.eq_nil_or_concat M with rfl | ⟨M2, x, rfl⟩
        · simp at hshort
        · simp only [List.concat_eq_append, List.length_append, List.length_singleton]
            at hn hr hshort ⊢
          obtain ⟨L, R, hstep, hperm, hL, hR⟩ :=
            pivot_step_spec x M2 P Q a l r (by subst ha; simp) hl (by omega)
          have hlen : L.length + R.length = M2.length := by simpa using hperm.length_eq
          rw [qsort_parallel_fuel_step bs sched n a l r (by omega) hb]
          rw [← sort_glue x L R M2 hperm hL hR]
          cases hs : sched l r with
          | true =>
            obtain ⟨s1, h1, b1⟩ := ih L P (x :: (R ++ Q)) (P ++ (L ++ x :: (R ++ Q))) l
              (P.length + L.length) (by omega) rfl hl rfl
            obtain ⟨s2, h2, b2⟩ := ih R (P ++ (L.insertionSort (· ≤ ·) ++ [x])) Q
              (P ++ (L.insertionSort (· ≤ ·) ++ x :: (R ++ Q))) (P.length + L.length + 1) r
              (by omega) (by simp) (by simp [List.length_insertionSort]; omega)
              (by simp [List.length_insertionSort]; omega)
            refine ⟨1 + s1 + s2, ?_, by unfold SpawnBound at *; omega⟩
            simp only [hstep, h1, h2, if_true]
            simp
          | false =>
            obtain ⟨s2, h2, b2⟩ := ih R (P ++ (L ++ [x])) Q
              (P ++ (L ++ x :: (R ++ Q))) (P.length + L.length + 1) r
              (by omega) (by simp) (by simp; omega) (by simp; omega)
            obtain ⟨s1, h1, b1⟩ := ih L P (x :: (R.insertionSort (· ≤ ·) ++ Q))
              (P ++ (L ++ [x]) ++ (R.insertionSort (· ≤ ·) ++ Q)) l
              (P.length + L.length) (by omega) (by simp) hl rfl
            refine ⟨1 + s1 + s2, ?_, by unfold SpawnBound at *; omega⟩
            simp only [hstep, h2, h1, Bool.false_eq_true, if_false]
            simp

/-- More fuel does not change what `qsort_parallel` returns. -/
theorem qsort_parallel_fuel_mono (bs : Nat) (sched : Nat → Nat → Bool) :
    ∀ (n : Nat) (a : List Int) (l r : Nat) (v : List Int × Nat),
    qsort_parallel_fuel bs sched n a l r = .ok v →
    qsort_parallel_fuel bs sched (n + 1) a l r = .ok v := by
  intro n
  induction n with
  | zero =>
    intro a l r v h
    by_cases h1 : l + 2 > r
    · rw [qsort_parallel_fuel_base _ _ _ _ _ _ h1] at h ⊢; exact h
    · by_cases h2 : r - l < bs
      · rw [qsort_parallel_fuel_small _ _ _ _ _ _ h1 h2] at h ⊢; exact h
      · rw [qsort_parallel_fuel] at h
        simp [h1, h2] at h
  | succ n ih =>
    intro a l r v h
    by_cases h1 : l + 2 > r
    · rw [qsort_parallel_fuel_base _ _ _ _ _ _ h1] at h ⊢; exact h
    · by_cases h2 : r - l < bs
      · rw [qsort_parallel_fuel_small _ _ _ _ _ _ h1 h2] at h ⊢; exact h
      · rw [qsort_parallel_fuel_step _ _ _ _ _ _ h1 h2] at h ⊢
        cases hp : pivot_step a l r with
        | error e => rw [hp] at h; simp at h
        | ok p =>
          obtain ⟨a2, ml⟩ := p
          rw [hp] at h
          simp only at h ⊢
          cases hs : sched l r with
          | true =>
            simp only [hs, if_true] at h ⊢
            cases hq1 : qsort_parallel_fuel bs sched n a2 l ml with
            | error e => rw [hq1] at h; simp at h
            | ok p1 =>
              obtain ⟨a3, s1⟩ := p1
              rw [hq1] at h
              simp only at h
              cases hq2 : qsort_parallel_fuel bs sched n a3 (ml + 1) r with
              | error e => rw [hq2] at h; simp at h
              | ok p2 =>
                rw [ih _ _ _ _ hq1]
                simp only
                rw [ih _ _ _ _ hq2]
                rw [hq2] at h
                exact h
          | false =>
            simp only [hs, Bool.false_eq_true, if_false] at h ⊢
            cases hq1 : qsort_parallel_fuel bs sched n a2 (ml + 1) r with
            | error e => rw [hq1] at h; simp at h
            | ok p1 =>
              obtain ⟨a3, s1⟩ := p1
              rw [hq1] at h
              simp only at h
              cases hq2 : qsort_parallel_fuel bs sched n a3 l ml with
              | error e => rw [hq2] at h; simp at h
              | ok p2 =>
                rw [ih _ _ _ _ hq1]
                simp only
                rw [ih _ _ _ _ hq2]
                rw [hq2] at h
                exact h

theorem qsort_parallel_fuel_mono_le (bs : Nat) (sched : Nat → Nat → Bool) (n m : Nat)
    (hnm : n ≤ m) (a : List Int) (l r : Nat) (v : List Int × Nat)
    (h : qsort_parallel_fuel bs sched n a l r = .ok v) :
    qsort_parallel_fuel bs sched m a l r = .ok v := by
  induction hnm with
  | refl => exact h
  | step _ ih => exact qsort_parallel_fuel_mono bs sched _ a l r v ih

/-! ## From the decomposed array to a range of the array -/

theorem split_range (a : List Int) (l r : Nat) (hl : l ≤ r) (hr : r ≤ a.length) :
    a = a.take l ++ (slice a l r ++ a.drop r) ∧ (a.take l).length = l
      ∧ (slice a l r).length = r - l := by
  refine ⟨?_, ?_, ?_⟩
  · have h1 : (a.take r).take l = a.take l := by
      rw [List.take_take, Nat.min_eq_left hl]
    have h2 := List.take_append_drop l (a.take r)
    rw [h1] at h2
    unfold slice
    rw [← List.append_assoc, h2, List.take_append_drop]
  · simp; omega
  · unfold slice; simp; omega

theorem qsort_sequential_fuel_eq (a : List Int) (l r n : Nat) (hl : l ≤ r) (hr : r ≤ a.length)
    (hn : r - l ≤ n) : qsort_sequential_fuel n a l r = .ok (sortedRange a l r) := by
  obtain ⟨h1, h2, h3⟩ := split_range a l r hl hr
  exact qsort_sequential_fuel_spec n (slice a l r) (a.take l) (a.drop r) a l r (by omega) h1
    h2.symm (by omega)

theorem qsort_parallel_fuel_eq (bs : Nat) (sched : Nat → Nat → Bool) (a : List Int)
    (l r n : Nat) (hl : l ≤ r) (hr : r ≤ a.length) (hn : r - l ≤ n) :
    ∃ s, qsort_parallel_fuel bs sched n a l r = .ok (sortedRange a l r, s)
      ∧ SpawnBound bs (r - l) s := by
  obtain ⟨h1, h2, h3⟩ := split_range a l r hl hr
  have := qsort_parallel_fuel_spec bs sched n (slice a l r) (a.take l) (a.drop r) a l r
    (by omega) h1 h2.symm (by omega)
  rw [h3] at this
  exact this

/-- On a range of at least two elements inside the array, lines 31-35 (53-57) return a
split point inside the range, so both sub-ranges are shorter than the range. -/
theorem pivot_step_range (a : List Int) (l r : Nat) (hl : l + 2 ≤ r) (hr : r ≤ a.length) :
    ∃ a2 ml, pivot_step a l r = .ok (a2, ml) ∧ l ≤ ml ∧ ml < r ∧ a2.length = a.length := by
  obtain ⟨h1, h2, h3⟩ := split_range a l r (by omega) hr
  rcases List.eq_nil_or_concat (slice a l r) with hnil | ⟨M2, x, hM⟩
  · rw [hnil] at h3; simp at h3; omega
  · rw [List.concat_eq_append] at hM
    have hlen : M2.length + 1 = r - l := by rw [← h3, hM]; simp
    obtain ⟨L, R, hstep, hperm, _, _⟩ :=
      pivot_step_spec x M2 (a.take l) (a.drop r) a l r (by rw [hM] at h1; simpa using h1)
        h2.symm (by omega)
    have hLR : L.length + R.length = M2.length := by simpa using hperm.length_eq
    refine ⟨_, _, hstep, by omega, by omega, ?_⟩
    have e1 : a.length = (a.take l).length + (M2.length + 1 + (a.drop r).length) := by
      conv_lhs => rw [h1, hM]
      simp
      omega
    rw [e1]
    simp
    omega

theorem sortedRange_split (a : List Int) (l r : Nat) (hl : l ≤ r) (hr : r ≤ a.length) :
    sortedRange a l r = (a.take l ++ (slice a l r).insertionSort (· ≤ ·)) ++ a.drop r
      ∧ (a.take l ++ (slice a l r).insertionSort (· ≤ ·)).length = r := by
  obtain ⟨_, h2, h3⟩ := split_range a l r hl hr
  refine ⟨by simp [sortedRange], ?_⟩
  rw [List.length_append, List.length_insertionSort, h2, h3]
  omega

theorem slice_sortedRange (a : List Int) (l r : Nat) (hl : l ≤ r) (hr : r ≤ a.length) :
    slice (sortedRange a l r) l r = (slice a l r).insertionSort (· ≤ ·) := by
  obtain ⟨h1, h2⟩ := sortedRange_split a l r hl hr
  obtain ⟨_, h3, _⟩ := split_range a l r hl hr
  have h0 : slice (sortedRange a l r) l r = ((sortedRange a l r).take r).drop l := rfl
  rw [h0, h1, List.take_left' h2, List.drop_left' h3]

theorem length_sortedRange (a : List Int) (l r : Nat) (hl : l ≤ r) (hr : r ≤ a.length) :
    (sortedRange a l r).length = a.length := by
  obtain ⟨h1, h2, h3⟩ := split_range a l r hl hr
  have : (sortedRange a l r).length = (a.take l ++ (slice a l r ++ a.drop r)).length := by
    simp [sortedRange, List.length_insertionSort]
  rw [this, ← h1]

theorem getElem?_sortedRange (a : List Int) (l r : Nat) (hl : l ≤ r) (hr : r ≤ a.length)
    (i : Nat) (hi : i < l ∨ r ≤ i) : (sortedRange a l r)[i]? = a[i]? := by
  obtain ⟨h1, h2, h3⟩ := split_range a l r hl hr
  rcases hi with hi | hi
  · have e1 : (sortedRange a l r)[i]? = (a.take l)[i]? :=
      List.getElem?_append_left (by omega)
    have e2 : (a.take l ++ (slice a l r ++ a.drop r))[i]? = (a.take l)[i]? :=
      List.getElem?_append_left (by omega)
    rw [e1, ← e2, ← h1]
  · obtain ⟨g1, g2⟩ := sortedRange_split a l r hl hr
    have g3 : a = (a.take l ++ slice a l r) ++ a.drop r := by
      rw [List.append_assoc]; exact h1
    have g4 : (a.take l ++ slice a l r).length = r := by
      rw [List.length_append, h2, h3]; omega
    have e1 : (sortedRange a l r)[i]? = (a.drop r)[i - r]? := by
      rw [g1, List.getElem?_append_right (by omega), g2]
    have e2 : ((a.take l ++ slice a l r) ++ a.drop r)[i]? = (a.drop r)[i - r]? := by
      rw [List.getElem?_append_right (by omega), g4]
    rw [e1, ← e2, ← g3]

theorem sortedRange_of_sorted (a : List Int) (l r : Nat) (hl : l ≤ r) (hr : r ≤ a.length)
    (hs : (slice a l r).Sorted (· ≤ ·)) : sortedRange a l r = a := by
  obtain ⟨h1, _, _⟩ := split_range a l r hl hr
  unfold sortedRange
  rw [hs.insertionSort_eq, ← h1]

theorem sortedRange_idem (a : List Int) (l r : Nat) (hl : l ≤ r) (hr : r ≤ a.length) :
    sortedRange (sortedRange a l r) l r = sortedRange a l r := by
  apply sortedRange_of_sorted _ l r hl (by rw [length_sortedRange a l r hl hr]; exact hr)
  rw [slice_sortedRange a l r hl hr]
  exact List.sorted_insertionSort _ _

/-! ## Properties of the two engines -/

/-- C1, sortedness: for every array `a` and every range `0 <= l <= r <= length(a)`, the
calls `qsort_sequential(a, l, r)` and `qsort_parallel(a, l, r)`, the latter for every
`block_size` and every schedule of the spawned calls (the serial one included), return
normally and leave the elements at indices `l .. r - 1` in non-descending order.  On
`[5, 3, 8, 3, 1]` with `block_size = 1` both engines yield `[1, 3, 3, 5, 8]`. -/
theorem qsort_sortedness (a : List Int) (l r block_size : Nat) (sched : Nat → Nat → Bool)
    (hl : l ≤ r) (hr : r ≤ a.length) :
    (∃ b, qsort_sequential a l r = .ok b ∧ (slice b l r).Sorted (· ≤ ·)) ∧
    (∃ c s, qsort_parallel block_size sched a l r = .ok (c, s) ∧ (slice c l r).Sorted (· ≤ ·)) ∧
    qsort_sequential [5, 3, 8, 3, 1] 0 5 = .ok [1, 3, 3, 5, 8] ∧
    qsort_parallel 1 serial [5, 3, 8, 3, 1] 0 5 = .ok ([1, 3, 3, 5, 8], 3) := by
  have hsorted : (slice (sortedRange a l r) l r).Sorted (· ≤ ·) := by
    rw [slice_sortedRange a l r hl hr]
    exact List.sorted_insertionSort _ _
  obtain ⟨s, hs, _⟩ := qsort_parallel_fuel_eq block_size sched a l r (r - l) hl hr (le_refl _)
  exact ⟨⟨_, qsort_sequential_fuel_eq a l r (r - l) hl hr (le_refl _), hsorted⟩,
    ⟨_, s, hs, hsorted⟩, rfl, rfl⟩

theorem qsort_sortedness_witness :
    (∃ b, qsort_sequential [4, 9, 2, 7, 2, 6] 1 5 = .ok b ∧ (slice b 1 5).Sorted (· ≤ ·)) ∧
    (∃ c s, qsort_parallel 2 serial [4, 9, 2, 7, 2, 6] 1 5 = .ok (c, s)
      ∧ (slice c 1 5).Sorted (· ≤ ·)) :=
  ⟨(qsort_sortedness [4, 9, 2, 7, 2, 6] 1 5 2 serial (by decide) (by decide)).1,
    (qsort_sortedness [4, 9, 2, 7, 2, 6] 1 5 2 serial (by decide) (by decide)).2.1⟩

/-- C2, permutation invariance: for every array `a` and every range
`0 <= l <= r <= length(a)`, the multiset of the values at indices `l .. r - 1` after
`qsort_sequential(a, l, r)`, and after `qsort_parallel(a, l, r)` for every `block_size`
and schedule, is the multiset of the values held there before the call. -/
theorem qsort_permutation (a : List Int) (l r block_size : Nat) (sched : Nat → Nat → Bool)
    (hl : l ≤ r) (hr : r ≤ a.length) :
    (∃ b, qsort_sequential a l r = .ok b
      ∧ (↑(slice b l r) : Multiset Int) = ↑(slice a l r)) ∧
    (∃ c s, qsort_parallel block_size sched a l r = .ok (c, s)
      ∧ (↑(slice c l r) : Multiset Int) = ↑(slice a l r)) := by
  have hperm : (↑(slice (sortedRange a l r) l r) : Multiset Int) = ↑(slice a l r) := by
    rw [slice_sortedRange a l r hl hr]
    exact Multiset.coe_eq_coe.2 (List.perm_insertionSort _ _)
  obtain ⟨s, hs, _⟩ := qsort_parallel_fuel_eq block_size sched a l r (r - l) hl hr (le_refl _)
  exact ⟨⟨_, qsort_sequential_fuel_eq a l r (r - l) hl hr (le_refl _), hperm⟩,
    ⟨_, s, hs, hperm⟩⟩

theorem qsort_permutation_witness :
    ∃ b, qsort_sequential [7, 7, 1, 0, 7] 0 4 = .ok b
      ∧ (↑(slice b 0 4) : Multiset Int) = ↑(slice [7, 7, 1, 0, 7] 0 4) :=
  (qsort_permutation [7, 7, 1, 0, 7] 0 4 3 serial (by decide) (by decide)).1

/-- C3, reference equivalence: for every array `a` of length `n`, the array produced by
`qsort_sequential(a, 0, n)` and the array produced by `qsort_parallel(a, 0, n)` (every
`block_size`, every schedule) are the array produced by the reference `qsort_std(a, 0, n)`,
the non-descending rearrangement of `a`; so an attempt of `main` passes both comparison
loops without reaching an `ERROR` branch. -/
theorem qsort_reference_equivalence (a : List Int) (block_size : Nat)
    (sched : Nat → Nat → Bool) :
    qsort_std a 0 a.length = .ok (a.insertionSort (· ≤ ·)) ∧
    qsort_sequential a 0 a.length = qsort_std a 0 a.length ∧
    (qsort_parallel block_size sched a 0 a.length).map Prod.fst = qsort_std a 0 a.length ∧
    attempt block_size sched a = .ok .pass := by
  have hstd : qsort_std a 0 a.length = .ok (a.insertionSort (· ≤ ·)) := by
    simp [qsort_std, slice]
  have hrange : sortedRange a 0 a.length = a.insertionSort (· ≤ ·) := by
    simp [sortedRange, slice]
  have hseq : qsort_sequential a 0 a.length = .ok (a.insertionSort (· ≤ ·)) := by
    rw [← hrange]
    exact qsort_sequential_fuel_eq a 0 a.length (a.length - 0) (Nat.zero_le _) (le_refl _)
      (le_refl _)
  obtain ⟨s, hs, _⟩ := qsort_parallel_fuel_eq block_size sched a 0 a.length (a.length - 0)
    (Nat.zero_le _) (le_refl _) (le_refl _)
  have hpar : (qsort_parallel block_size sched a 0 a.length).map Prod.fst
      = .ok (a.insertionSort (· ≤ ·)) := by
    unfold qsort_parallel
    rw [hs, hrange]
    rfl
  have hmis : ∀ (x : List Int) (n : Nat), mismatch x x n = false := by
    intro x n
    simp [mismatch]
  refine ⟨hstd, by rw [hseq, hstd], by rw [hpar, hstd], ?_⟩
  simp only [attempt, bench_micros, le_refl, if_true, List.take_length, hstd, hseq, hpar, hmis]
  rfl

/-- C4, the parallel engine has the postcondition of the sequential one: for every array
`a`, every range `0 <= l <= r <= length(a)`, every `block_size` (0 and 1 included) and
every schedule, that is, with the spawned left call and the inline right call run in
either order at each spawn, `qsort_parallel(a, l, r)` leaves the array in exactly the
state in which `qsort_sequential(a, l, r)` leaves it. -/
theorem qsort_parallel_same_state (a : List Int) (l r block_size : Nat)
    (sched : Nat → Nat → Bool) (hl : l ≤ r) (hr : r ≤ a.length) :
    ∃ b, qsort_sequential a l r = .ok b
      ∧ ∃ s, qsort_parallel block_size sched a l r = .ok (b, s) := by
  obtain ⟨s, hs, _⟩ := qsort_parallel_fuel_eq block_size sched a l r (r - l) hl hr (le_refl _)
  exact ⟨_, qsort_sequential_fuel_eq a l r (r - l) hl hr (le_refl _), s, hs⟩

theorem qsort_parallel_same_state_witness :
    ∃ b, qsort_sequential [3, 1, 2, 3, 0, 5] 0 6 = .ok b
      ∧ ∃ s, qsort_parallel 0 (fun l _ => decide (l = 0)) [3, 1, 2, 3, 0, 5] 0 6 = .ok (b, s) :=
  qsort_parallel_same_state [3, 1, 2, 3, 0, 5] 0 6 0 (fun l _ => decide (l = 0))
    (by decide) (by decide)

/-- C5, frame: for every array `a` and every range `0 <= l <= r <= length(a)`,
`qsort_sequential(a, l, r)` and `qsort_parallel(a, l, r)` keep the length of the array and
the value at every index `i < l` and every index `i >= r`. -/
theorem qsort_frame (a : List Int) (l r block_size : Nat) (sched : Nat → Nat → Bool)
    (hl : l ≤ r) (hr : r ≤ a.length) :
    (∃ b, qsort_sequential a l r = .ok b ∧ b.length = a.length
      ∧ ∀ i, i < l ∨ r ≤ i → b[i]? = a[i]?) ∧
    (∃ p s, qsort_parallel block_size sched a l r = .ok (p, s) ∧ p.length = a.length
      ∧ ∀ i, i < l ∨ r ≤ i → p[i]? = a[i]?) := by
  obtain ⟨s, hs, _⟩ := qsort_parallel_fuel_eq block_size sched a l r (r - l) hl hr (le_refl _)
  exact ⟨⟨_, qsort_sequential_fuel_eq a l r (r - l) hl hr (le_refl _),
      length_sortedRange a l r hl hr, getElem?_sortedRange a l r hl hr⟩,
    ⟨_, s, hs, length_sortedRange a l r hl hr, getElem?_sortedRange a l r hl hr⟩⟩

theorem qsort_frame_witness :
    ∃ b, qsort_sequential [9, 8, 7, 6, 5, 4] 2 5 = .ok b ∧ b.length = [9, 8, 7, 6, 5, 4].length
      ∧ ∀ i, i < 2 ∨ 5 ≤ i → b[i]? = ([9, 8, 7, 6, 5, 4] : List Int)[i]? :=
  (qsort_frame [9, 8, 7, 6, 5, 4] 2 5 2 serial (by decide) (by decide)).1

/-- C6, idempotence: for every array `a` whose elements at `l .. r - 1` are already in
non-descending order, in particular when they are all equal, `qsort_sequential(a, l, r)`
and `qsort_parallel(a, l, r)` return the array unchanged, position by position; so sorting
the output of a sort a second time changes nothing. -/
theorem qsort_idempotent (a : List Int) (l r block_size : Nat) (sched : Nat → Nat → Bool)
    (hl : l ≤ r) (hr : r ≤ a.length) :
    ((slice a l r).Sorted (· ≤ ·) →
      qsort_sequential a l r = .ok a ∧ ∃ s, qsort_parallel block_size sched a l r = .ok (a, s)) ∧
    (∀ v, (∀ y ∈ slice a l r, y = v) →
      qsort_sequential a l r = .ok a ∧ ∃ s, qsort_parallel block_size sched a l r = .ok (a, s)) ∧
    (∃ b, qsort_sequential a l r = .ok b ∧ qsort_sequential b l r = .ok b
      ∧ (∃ s, qsort_parallel block_size sched a l r = .ok (b, s))
      ∧ ∃ s, qsort_parallel block_size sched b l r = .ok (b, s)) := by
  have hseq := qsort_sequential_fuel_eq a l r (r - l) hl hr (le_refl _)
  obtain ⟨s, hs, _⟩ := qsort_parallel_fuel_eq block_size sched a l r (r - l) hl hr (le_refl _)
  have hsorted : (slice a l r).Sorted (· ≤ ·) →
      qsort_sequential a l r = .ok a ∧ ∃ s, qsort_parallel block_size sched a l r = .ok (a, s) := by
    intro h
    have heq := sortedRange_of_sorted a l r hl hr h
    rw [heq] at hseq hs
    exact ⟨hseq, s, hs⟩
  refine ⟨hsorted, ?_, ?_⟩
  · intro v hv
    apply hsorted
    apply List.pairwise_of_forall_mem_list
    intro x hx y hy
    rw [hv x hx, hv y hy]
  · have hlen : r ≤ (sortedRange a l r).length := by
      rw [length_sortedRange a l r hl hr]; exact hr
    have hseq2 := qsort_sequential_fuel_eq (sortedRange a l r) l r (r - l) hl hlen (le_refl _)
    obtain ⟨s2, hs2, _⟩ := qsort_parallel_fuel_eq block_size sched (sortedRange a l r) l r
      (r - l) hl hlen (le_refl _)
    rw [sortedRange_idem a l r hl hr] at hseq2 hs2
    exact ⟨_, hseq, hseq2, ⟨s, hs⟩, ⟨s2, hs2⟩⟩

theorem qsort_idempotent_witness :
    qsort_sequential [3, 1, 2, 2, 5, 0] 1 5 = .ok [3, 1, 2, 2, 5, 0]
      ∧ ∃ s, qsort_parallel 2 serial [3, 1, 2, 2, 5, 0] 1 5 = .ok ([3, 1, 2, 2, 5, 0], s) :=
  (qsort_idempotent [3, 1, 2, 2, 5, 0] 1 5 2 serial (by decide) (by decide)).1 (by decide)

/-- C7, threshold invariant: for every array, every `block_size`, every schedule and every
call `qsort_parallel(a, l, r)` on a range `0 <= l <= r <= length(a)` with
`r - l < block_size`, at whatever depth of the recursion the call is made, the call returns
what `qsort_sequential(a, l, r)` returns and the number of tasks spawned by the call and
its whole call tree is zero. -/
theorem qsort_parallel_below_threshold (a : List Int) (l r block_size : Nat)
    (sched : Nat → Nat → Bool) (hl : l ≤ r) (hr : r ≤ a.length) (hb : r - l < block_size) :
    ∃ b, qsort_sequential a l r = .ok b
      ∧ qsort_parallel block_size sched a l r = .ok (b, 0)
      ∧ ∀ fuel, qsort_parallel_fuel block_size sched fuel a l r = .ok (b, 0) := by
  have hseq := qsort_sequential_fuel_eq a l r (r - l) hl hr (le_refl _)
  have hall : ∀ fuel, qsort_parallel_fuel block_size sched fuel a l r
      = .ok (sortedRange a l r, 0) := by
    intro fuel
    by_cases h : l + 2 > r
    · have hbase : qsort_sequential_fuel (r - l) a l r = .ok a :=
        qsort_sequential_fuel_base _ a l r h
      rw [hseq] at hbase
      rw [qsort_parallel_fuel_base _ _ _ a l r h, Except.ok.inj hbase]
    · rw [qsort_parallel_fuel_small _ _ _ a l r h hb]
      unfold qsort_sequential
      rw [hseq]
      rfl
  exact ⟨_, hseq, hall _, hall⟩

theorem qsort_parallel_below_threshold_witness :
    ∃ b, qsort_sequential [6, 2, 9, 4, 1] 0 5 = .ok b
      ∧ qsort_parallel 6 serial [6, 2, 9, 4, 1] 0 5 = .ok (b, 0)
      ∧ ∀ fuel, qsort_parallel_fuel 6 serial fuel [6, 2, 9, 4, 1] 0 5 = .ok (b, 0) :=
  qsort_parallel_below_threshold [6, 2, 9, 4, 1] 0 5 6 serial (by decide) (by decide)
    (by decide)

/-- C8, threshold boundary: for every array whose length `n` equals `block_size` and is at
least 2, so that a partition takes place, `qsort_parallel(a, 0, n)` spawns at least one
task, and both sub-ranges left by the partition are strictly shorter than `n`. -/
theorem qsort_parallel_at_threshold (a : List Int) (block_size : Nat)
    (sched : Nat → Nat → Bool) (hn : a.length = block_size) (h2 : 2 ≤ a.length) :
    (∃ b s, qsort_parallel block_size sched a 0 a.length = .ok (b, s) ∧ 1 ≤ s) ∧
    (∃ a2 ml, pivot_step a 0 a.length = .ok (a2, ml)
      ∧ ml - 0 < a.length ∧ a.length - (ml + 1) < a.length) := by
  obtain ⟨s, hs, hbound⟩ := qsort_parallel_fuel_eq block_size sched a 0 a.length
    (a.length - 0) (Nat.zero_le _) (le_refl _) (le_refl _)
  obtain ⟨a2, ml, hstep, _, hml, _⟩ := pivot_step_range a 0 a.length (by omega) (le_refl _)
  refine ⟨⟨_, s, hs, ?_⟩, ⟨a2, ml, hstep, by omega, by omega⟩⟩
  unfold SpawnBound at hbound
  omega

theorem qsort_parallel_at_threshold_witness :
    ∃ b s, qsort_parallel 4 serial [2, 8, 1, 5] 0 ([2, 8, 1, 5] : List Int).length = .ok (b, s)
      ∧ 1 ≤ s :=
  (qsort_parallel_at_threshold [2, 8, 1, 5] 4 serial (by decide) (by decide)).1

/-- C9, base case: for every array and every range of length 0 or 1 (`l <= r` and
`r - l < 2`), `qsort_sequential` and `qsort_parallel` return at once, without a recursive
call, with the array unchanged, and `qsort_parallel` spawns no task, whatever the value of
`block_size` (0 and 1 included).  The sum `l + 2` of lines 28 and 45 is a `size_t`; the
statement is for `l + 2 < 2 ^ 64`, where it does not wrap, as is the case of every range
of an `int` array. -/
theorem qsort_base_case (a : List Int) (l r block_size : Nat) (sched : Nat → Nat → Bool)
    (_hl : l ≤ r) (h : r - l < 2) (_hw : l + 2 < 2 ^ 64) :
    qsort_sequential a l r = .ok a ∧ (∀ fuel, qsort_sequential_fuel fuel a l r = .ok a) ∧
    qsort_parallel block_size sched a l r = .ok (a, 0) ∧
    (∀ fuel, qsort_parallel_fuel block_size sched fuel a l r = .ok (a, 0)) := by
  have hlr : l + 2 > r := by omega
  exact ⟨qsort_sequential_fuel_base _ a l r hlr, fun _ => qsort_sequential_fuel_base _ a l r hlr,
    qsort_parallel_fuel_base _ _ _ a l r hlr, fun _ => qsort_parallel_fuel_base _ _ _ a l r hlr⟩

theorem qsort_base_case_witness :
    qsort_sequential [4, 2] 1 2 = .ok [4, 2] ∧
    (∀ fuel, qsort_sequential_fuel fuel [4, 2] 1 2 = .ok [4, 2]) ∧
    qsort_parallel 0 serial [4, 2] 1 2 = .ok ([4, 2], 0) ∧
    (∀ fuel, qsort_parallel_fuel 0 serial fuel [4, 2] 1 2 = .ok ([4, 2], 0)) :=
  qsort_base_case [4, 2] 1 2 0 serial (by decide) (by decide) (by norm_num)

/-- C10, termination: for every array, every range `0 <= l <= r <= length(a)`, every
`block_size` and every schedule, `qsort_sequential` and `qsort_parallel` return: a
recursion depth of `r - l` is enough, and any larger bound gives the same result.  Each
recursive call is made on a range inside the array that is strictly shorter than its
parent's, so the recursion is well-founded on `r - l`. -/
theorem qsort_terminates (a : List Int) (l r block_size : Nat) (sched : Nat → Nat → Bool)
    (fuel : Nat) (hl : l ≤ r) (hr : r ≤ a.length) (hf : r - l ≤ fuel) :
    (∃ b, qsort_sequential a l r = .ok b ∧ qsort_sequential_fuel fuel a l r = .ok b) ∧
    (∃ b s, qsort_parallel block_size sched a l r = .ok (b, s)
      ∧ qsort_parallel_fuel block_size sched fuel a l r = .ok (b, s)) ∧
    (l + 2 ≤ r → ∃ a2 ml, pivot_step a l r = .ok (a2, ml) ∧ a2.length = a.length
      ∧ l ≤ ml ∧ ml + 1 ≤ r ∧ ml - l < r - l ∧ r - (ml + 1) < r - l) := by
  obtain ⟨s, hs, _⟩ := qsort_parallel_fuel_eq block_size sched a l r (r - l) hl hr (le_refl _)
  refine ⟨⟨_, qsort_sequential_fuel_eq a l r (r - l) hl hr (le_refl _),
      qsort_sequential_fuel_eq a l r fuel hl hr hf⟩,
    ⟨_, s, hs, qsort_parallel_fuel_mono_le block_size sched (r - l) fuel hf a l r _ hs⟩, ?_⟩
  intro h2
  obtain ⟨a2, ml, hstep, h1, h3, h4⟩ := pivot_step_range a l r h2 hr
  exact ⟨a2, ml, hstep, h4, h1, by omega, by omega, by omega⟩

theorem qsort_terminates_witness :
    (∃ b, qsort_sequential [1, 1, 1, 1, 1, 1] 0 6 = .ok b
      ∧ qsort_sequential_fuel 9 [1, 1, 1, 1, 1, 1] 0 6 = .ok b) ∧
    (∃ b s, qsort_parallel 3 serial [1, 1, 1, 1, 1, 1] 0 6 = .ok (b, s)
      ∧ qsort_parallel_fuel 3 serial 9 [1, 1, 1, 1, 1, 1] 0 6 = .ok (b, s)) :=
  ⟨(qsort_terminates [1, 1, 1, 1, 1, 1] 0 6 3 serial 9 (by decide) (by decide) (by decide)).1,
    (qsort_terminates [1, 1, 1, 1, 1, 1] 0 6 3 serial 9 (by decide) (by decide) (by decide)).2.1⟩

/-! ## Ranges that are not valid -/

theorem readAt_beyond (a : List Int) (i : Nat) (h : a.length ≤ i) :
    readAt a i = .error .outOfBounds := by
  unfold readAt
  rw [List.getElem?_eq_none h]

theorem pivot_step_beyond (a : List Int) (l r : Nat) (h : a.length < r) :
    pivot_step a l r = .error .outOfBounds := by
  unfold pivot_step
  rw [readAt_beyond a (r - 1) (by omega)]

theorem qsort_sequential_beyond (a : List Int) (l r : Nat) (h2 : l + 2 ≤ r)
    (h : a.length < r) : qsort_sequential a l r = .error .outOfBounds := by
  unfold qsort_sequential
  obtain ⟨k, hk⟩ : ∃ k, r - l = k + 1 := ⟨r - l - 1, by omega⟩
  rw [hk, qsort_sequential_fuel_step k a l r (by omega), pivot_step_beyond a l r h]

theorem qsort_parallel_beyond (bs : Nat) (sched : Nat → Nat → Bool) (a : List Int) (l r : Nat)
    (h2 : l + 2 ≤ r) (h : a.length < r) :
    qsort_parallel bs sched a l r = .error .outOfBounds := by
  unfold qsort_parallel
  by_cases hb : r - l < bs
  · rw [qsort_parallel_fuel_small bs sched _ a l r (by omega) hb,
      qsort_sequential_beyond a l r h2 h]
    rfl
  · obtain ⟨k, hk⟩ : ∃ k, r - l = k + 1 := ⟨r - l - 1, by omega⟩
    rw [hk, qsort_parallel_fuel_step bs sched k a l r (by omega) hb, pivot_step_beyond a l r h]

/-- C11, counterexample: the inverted range `l = 2 > r = 1` on `[3, 1, 2]`, and the range
`[4, 5)` lying beyond the end of the array, are not rejected: both engines return normally
with the array as it was. -/
theorem qsort_invalid_range_tolerated :
    qsort_sequential [3, 1, 2] 2 1 = .ok [3, 1, 2] ∧
    qsort_parallel 1000 serial [3, 1, 2] 2 1 = .ok ([3, 1, 2], 0) ∧
    qsort_sequential [3, 1, 2] 4 5 = .ok [3, 1, 2] ∧
    qsort_parallel 1000 serial [3, 1, 2] 4 5 = .ok ([3, 1, 2], 0) :=
  ⟨rfl, rfl, rfl, rfl⟩

/-- C11, as amended: the engines make no check of the range.  For `l + 2` within the range of
`size_t`, a call with `r < l + 2`, which every inverted range `l > r` is, and every range of
length 0 or 1 wherever it lies, returns normally at once with the array unchanged and no
task spawned.  A call with `l + 2 <= r` and `r > length(a)` is not turned down either: its
first access, the read of `a[r - 1]`, is outside the array. -/
theorem qsort_invalid_range (a : List Int) (l r block_size : Nat) (sched : Nat → Nat → Bool)
    (_hw : l + 2 < 2 ^ 64) :
    (r < l + 2 →
      qsort_sequential a l r = .ok a ∧ qsort_parallel block_size sched a l r = .ok (a, 0)) ∧
    (l + 2 ≤ r → a.length < r →
      readAt a (r - 1) = .error .outOfBounds ∧
      qsort_sequential a l r = .error .outOfBounds ∧
      qsort_parallel block_size sched a l r = .error .outOfBounds) :=
  ⟨fun h => ⟨qsort_sequential_fuel_base _ a l r h, qsort_parallel_fuel_base _ _ _ a l r h⟩,
    fun h2 h => ⟨readAt_beyond a (r - 1) (by omega), qsort_sequential_beyond a l r h2 h,
      qsort_parallel_beyond block_size sched a l r h2 h⟩⟩

theorem qsort_invalid_range_witness :
    (qsort_sequential [7, 0, 4] 5 1 = .ok [7, 0, 4]
      ∧ qsort_parallel 2 serial [7, 0, 4] 5 1 = .ok ([7, 0, 4], 0)) ∧
    (readAt [7, 0, 4] (6 - 1) = .error .outOfBounds ∧
      qsort_sequential [7, 0, 4] 1 6 = .error .outOfBounds ∧
      qsort_parallel 2 serial [7, 0, 4] 1 6 = .error .outOfBounds) :=
  ⟨(qsort_invalid_range [7, 0, 4] 5 1 2 serial (by norm_num)).1 (by decide),
    (qsort_invalid_range [7, 0, 4] 1 6 2 serial (by norm_num)).2 (by decide) (by decide)⟩

/-! ## The layout left by the partition step -/

theorem getElem?_middle (P S Q : List Int) (i : Nat) (h1 : P.length ≤ i)
    (h2 : i < P.length + S.length) : ∃ y ∈ S, (P ++ (S ++ Q))[i]? = some y := by
  have h3 : i - P.length < S.length := by omega
  refine ⟨S[i - P.length], List.getElem_mem _, ?_⟩
  rw [List.getElem?_append_right h1, List.getElem?_append_left h3]
  exact List.getElem?_eq_getElem h3

/-- The states of the array along lines 31-35 (53-57) on the range holding `M ++ [x]`:
after `std::partition` the pivot `x` is still the last element of the range, behind `L`,
the elements below it, and `R`, the others; the swap then puts it at the split point. -/
theorem pivot_step_layout (x : Int) (M P Q a : List Int) (l r : Nat)
    (ha : a = P ++ (M ++ x :: Q)) (hl : l = P.length) (hr : r = P.length + M.length + 1) :
    ∃ L R R2, readAt a (r - 1) = .ok x
      ∧ partition a l r x = .ok (P ++ (L ++ (R ++ x :: Q)), P.length + L.length)
      ∧ partition a l (r - 1) x = partition a l r x
      ∧ swapAt (P ++ (L ++ (R ++ x :: Q))) (r - 1) (P.length + L.length)
          = .ok (P ++ (L ++ x :: (R2 ++ Q)))
      ∧ pivot_step a l r = .ok (P ++ (L ++ x :: (R2 ++ Q)), P.length + L.length)
      ∧ (L ++ R).Perm M ∧ R2.Perm R ∧ (∀ y ∈ L, y < x) ∧ (∀ y ∈ R2, ¬ y < x) := by
  have hrd : readAt a (r - 1) = .ok x := by
    have ha2 : a = (P ++ M) ++ x :: Q := by subst ha; simp
    rw [ha2]; exact readAt_mid _ _ _ _ (by subst hr; simp)
  have hshort : partition a l (r - 1) x
      = partition_loop x (M.length + 1) false a l (P.length + M.length) := by
    have hfuel : r - 1 - l + 1 = M.length + 1 := by omega
    have hlast : r - 1 = P.length + M.length := by omega
    unfold partition
    rw [hfuel, hlast]
  have hpart : partition a l r x
      = partition_loop x (M.length + 1) false a l (P.length + M.length) := by
    have hfuel : r - l + 1 = (M.length + 1) + 1 := by omega
    unfold partition
    rw [hfuel, hr]
    exact partition_loop_skip_last x x (lt_irrefl x) M P Q a l (P.length + M.length)
      (M.length + 1) (by omega) ha hl rfl
  obtain ⟨L, R, hres, hperm, hL, hR⟩ :=
    (partition_loop_spec x (M.length + 1)).1 M P (x :: Q) a l (P.length + M.length)
      (by omega) ha hl rfl
  have hlen : L.length + R.length = M.length := by
    simpa using hperm.length_eq
  have hsw : ∃ R2, swapAt (P ++ (L ++ (R ++ x :: Q))) (r - 1) (P.length + L.length)
      = .ok (P ++ (L ++ x :: (R2 ++ Q))) ∧ R2.Perm R := by
    cases R with
    | nil =>
      refine ⟨[], ?_, List.Perm.refl _⟩
      have := swapAt_self (P ++ L) Q x (r - 1) (P.length + L.length)
        (by simp at hlen; simp; omega) (by simp)
      simpa using this
    | cons h T =>
      refine ⟨T ++ [h], ?_, @List.perm_append_comm _ T [h]⟩
      have := swapAt_mid_rev (P ++ L) T Q h x (P.length + L.length) (r - 1) (by simp)
        (by simp at hlen; simp; omega)
      simpa using this
  obtain ⟨R2, hswap, hR2⟩ := hsw
  refine ⟨L, R, R2, hrd, by rw [hpart, hres], by rw [hshort, hpart], hswap, ?_, hperm, hR2, hL,
    fun y hy => hR y (hR2.mem_iff.1 hy)⟩
  simp only [pivot_step, hrd, hpart, hres, hswap]

theorem range_with_pivot (a : List Int) (l r : Nat) (hl : l + 2 ≤ r) (hr : r ≤ a.length) :
    ∃ M x, a = a.take l ++ (M ++ x :: a.drop r) ∧ l = (a.take l).length
      ∧ r = (a.take l).length + M.length + 1 ∧ slice a l r = M ++ [x] := by
  obtain ⟨h1, h2, h3⟩ := split_range a l r (by omega) hr
  rcases List.eq_nil_or_concat (slice a l r) with hnil | ⟨M, x, hM⟩
  · rw [hnil] at h3; simp at h3; omega
  · rw [List.concat_eq_append] at hM
    have hlen : M.length + 1 = r - l := by rw [← h3, hM]; simp
    refine ⟨M, x, ?_, h2.symm, by omega, hM⟩
    rw [hM] at h1
    simpa using h1

/-- C13, split point invariant: for every array and every range `[l, r)` inside it with
`r - l >= 2`, with `x` the value at `r - 1` on entry, the partition call of line 32 (54)
leaves `x` at `r - 1`, and after the swap of line 35 (57) the boundary index `ml - a`
has every element of `[l, ml)` less than `x`, every element of `[ml, r)` greater than or
equal to `x`, and `x` itself at index `ml`. -/
theorem pivot_step_split_point (a : List Int) (l r : Nat) (hl : l + 2 ≤ r)
    (hr : r ≤ a.length) :
    ∃ x a1 a2 ml, readAt a (r - 1) = .ok x
      ∧ partition a l r x = .ok (a1, ml) ∧ a1[r - 1]? = some x
      ∧ swapAt a1 (r - 1) ml = .ok a2
      ∧ pivot_step a l r = .ok (a2, ml)
      ∧ (∀ i, l ≤ i → i < ml → ∃ y, a2[i]? = some y ∧ y < x)
      ∧ (∀ i, ml ≤ i → i < r → ∃ y, a2[i]? = some y ∧ x ≤ y)
      ∧ a2[ml]? = some x := by
  obtain ⟨M, x, ha, hl2, hr2, _⟩ := range_with_pivot a l r hl hr
  obtain ⟨L, R, R2, hrd, hpart, _, hswap, hstep, hperm, hR2, hL, hR⟩ :=
    pivot_step_layout x M (a.take l) (a.drop r) a l r ha hl2 hr2
  have hlen : L.length + R.length = M.length := by simpa using hperm.length_eq
  have hlen2 : R2.length = R.length := hR2.length_eq
  refine ⟨x, _, _, _, hrd, hpart, ?_, hswap, hstep, ?_, ?_, ?_⟩
  · have h := getElem?_mid (a.take l ++ (L ++ R)) (a.drop r) x
    have e : (a.take l ++ (L ++ R)).length = r - 1 := by
      simp only [List.length_append]; omega
    rw [e] at h
    simpa using h
  · intro i h1 h2
    obtain ⟨y, hy, hget⟩ := getElem?_middle (a.take l) L (x :: (R2 ++ a.drop r)) i
      (by omega) (by omega)
    exact ⟨y, hget, hL y hy⟩
  · intro i h1 h2
    obtain ⟨y, hy, hget⟩ := getElem?_middle (a.take l ++ L) (x :: R2) (a.drop r) i
      (by simp only [List.length_append]; omega)
      (by simp only [List.length_append, List.length_cons]; omega)
    refine ⟨y, by simpa using hget, ?_⟩
    rcases List.mem_cons.1 hy with rfl | hy
    · exact le_refl _
    · exact not_lt.1 (hR y hy)
  · have h := getElem?_mid (a.take l ++ L) (R2 ++ a.drop r) x
    simpa using h

theorem pivot_step_split_point_witness :
    ∃ x a1 a2 ml, readAt [8, 5, 1, 9, 3, 4, 0] (6 - 1) = .ok x
      ∧ partition [8, 5, 1, 9, 3, 4, 0] 1 6 x = .ok (a1, ml) ∧ a1[6 - 1]? = some x
      ∧ swapAt a1 (6 - 1) ml = .ok a2
      ∧ pivot_step [8, 5, 1, 9, 3, 4, 0] 1 6 = .ok (a2, ml)
      ∧ (∀ i, 1 ≤ i → i < ml → ∃ y, a2[i]? = some y ∧ y < x)
      ∧ (∀ i, ml ≤ i → i < 6 → ∃ y, a2[i]? = some y ∧ x ≤ y)
      ∧ a2[ml]? = some x :=
  pivot_step_split_point [8, 5, 1, 9, 3, 4, 0] 1 6 (by decide) (by decide)

/-- C14, the position of the pivot is left out of the scan: for every array and every range
`[l, r)` inside it with `r - l >= 2`, the partition step of `qsort_sequential` and
`qsort_parallel`, which hands `[l, r)` to `std::partition`, returns the array and the split
point that partitioning `[l, r - 1)` by `y < x` and then swapping the element at `r - 1`
with the element at the boundary returns; already the two partition calls agree. -/
theorem pivot_step_excludes_pivot (a : List Int) (l r : Nat) (hl : l + 2 ≤ r)
    (hr : r ≤ a.length) :
    pivot_step a l r = pivot_step_excluding_pivot a l r
      ∧ (∃ a2 ml, pivot_step_excluding_pivot a l r = .ok (a2, ml))
      ∧ ∃ x a1 ml, readAt a (r - 1) = .ok x ∧ partition a l r x = .ok (a1, ml)
          ∧ partition a l (r - 1) x = .ok (a1, ml) := by
  obtain ⟨M, x, ha, hl2, hr2, _⟩ := range_with_pivot a l r hl hr
  obtain ⟨L, R, R2, hrd, hpart, hsame, hswap, hstep, _⟩ :=
    pivot_step_layout x M (a.take l) (a.drop r) a l r ha hl2 hr2
  have hexcl : pivot_step_excluding_pivot a l r
      = .ok (a.take l ++ (L ++ x :: (R2 ++ a.drop r)), (a.take l).length + L.length) := by
    simp only [pivot_step_excluding_pivot, hrd, hsame, hpart, hswap]
  exact ⟨by rw [hstep, hexcl], ⟨_, _, hexcl⟩, x, _, _, hrd, hpart, by rw [hsame, hpart]⟩

theorem pivot_step_excludes_pivot_witness :
    pivot_step [2, 7, 1, 6, 3, 5] 0 6 = pivot_step_excluding_pivot [2, 7, 1, 6, 3, 5] 0 6
      ∧ (∃ a2 ml, pivot_step_excluding_pivot [2, 7, 1, 6, 3, 5] 0 6 = .ok (a2, ml)) :=
  ⟨(pivot_step_excludes_pivot [2, 7, 1, 6, 3, 5] 0 6 (by decide) (by decide)).1,
    (pivot_step_excludes_pivot [2, 7, 1, 6, 3, 5] 0 6 (by decide) (by decide)).2.1⟩

/-! ## The ranges of the calls made in a run -/

theorem qsort_sequential_ranges_base (n : Nat) (a : List Int) (l r : Nat) (h : l + 2 > r) :
    qsort_sequential_ranges n a l r = [(l, r)] := by
  unfold qsort_sequential_ranges
  simp [h]

theorem qsort_sequential_ranges_step (n : Nat) (a : List Int) (l r : Nat) (h : ¬ l + 2 > r) :
    qsort_sequential_ranges (n + 1) a l r =
      (l, r) ::
        match pivot_step a l r with
        | .error _ => []
        | .ok (a2, ml) =>
          qsort_sequential_ranges n a2 l ml ++
            match qsort_sequential_fuel n a2 l ml with
            | .error _ => []
            | .ok a3 => qsort_sequential_ranges n a3 (ml + 1) r := by
  rw [qsort_sequential_ranges]
  simp only [h, if_false]

/-- Every call made in a run of `qsort_sequential` on a range inside the array is on a
range inside the range of the run. -/
theorem qsort_sequential_ranges_within : ∀ (n : Nat) (a : List Int) (l r : Nat),
    l ≤ r → r ≤ a.length → r - l ≤ n →
    ∀ p ∈ qsort_sequential_ranges n a l r, l ≤ p.1 ∧ p.1 ≤ p.2 ∧ p.2 ≤ r := by
  intro n
  induction n with
  | zero =>
    intro a l r hl hr hn p hp
    rw [qsort_sequential_ranges_base 0 a l r (by omega)] at hp
    simp only [List.mem_singleton] at hp
    subst hp
    exact ⟨le_refl _, hl, le_refl _⟩
  | succ n ih =>
    intro a l r hl hr hn p hp
    by_cases h : l + 2 > r
    · rw [qsort_sequential_ranges_base _ a l r h] at hp
      simp only [List.mem_singleton] at hp
      subst hp
      exact ⟨le_refl _, hl, le_refl _⟩
    · obtain ⟨a2, ml, hstep, h1, h2, hlen⟩ := pivot_step_range a l r (by omega) hr
      have hseq := qsort_sequential_fuel_eq a2 l ml n h1 (by omega) (by omega)
      rw [qsort_sequential_ranges_step n a l r h, hstep] at hp
      simp only [hseq, List.mem_cons, List.mem_append] at hp
      rcases hp with rfl | hp | hp
      · exact ⟨le_refl _, hl, le_refl _⟩
      · have := ih a2 l ml h1 (by omega) (by omega) p hp
        omega
      · have := ih (sortedRange a2 l ml) (ml + 1) r (by omega)
          (by rw [length_sortedRange a2 l ml h1 (by omega)]; omega) (by omega) p hp
        omega

theorem qsort_parallel_ranges_base (bs : Nat) (sched : Nat → Nat → Bool) (n : Nat)
    (a : List Int) (l r : Nat) (h : l + 2 > r) :
    qsort_parallel_ranges bs sched n a l r = [(l, r)] := by
  unfold qsort_parallel_ranges
  simp [h]

theorem qsort_parallel_ranges_small (bs : Nat) (sched : Nat → Nat → Bool) (n : Nat)
    (a : List Int) (l r : Nat) (h : ¬ l + 2 > r) (hb : r - l < bs) :
    qsort_parallel_ranges bs sched n a l r = (l, r) :: qsort_sequential_ranges (r - l) a l r := by
  unfold qsort_parallel_ranges
  simp only [h, hb, if_false, if_true]

theorem qsort_parallel_ranges_step (bs : Nat) (sched : Nat → Nat → Bool) (n : Nat)
    (a : List Int) (l r : Nat) (h : ¬ l + 2 > r) (hb : ¬ r - l < bs) :
    qsort_parallel_ranges bs sched (n + 1) a l r =
      (l, r) ::
        match pivot_step a l r with
        | .error _ => []
        | .ok (a2, ml) =>
          if sched l r then
            qsort_parallel_ranges bs sched n a2 l ml ++
              match qsort_parallel_fuel bs sched n a2 l ml with
              | .error _ => []
              | .ok (a3, _) => qsort_parallel_ranges bs sched n a3 (ml + 1) r
          else
            qsort_parallel_ranges bs sched n a2 (ml + 1) r ++
              match qsort_parallel_fuel bs sched n a2 (ml + 1) r with
              | .error _ => []
              | .ok (a3, _) => qsort_parallel_ranges bs sched n a3 l ml := by
  rw [qsort_parallel_ranges]
  simp only [h, hb, if_false]

/-- Every call made in a run of `qsort_parallel` on a range inside the array, whatever the
block size and the schedule, is on a range inside the range of the run. -/
theorem qsort_parallel_ranges_within (bs : Nat) (sched : Nat → Nat → Bool) :
    ∀ (n : Nat) (a : List Int) (l r : Nat),
    l ≤ r → r ≤ a.length → r - l ≤ n →
    ∀ p ∈ qsort_parallel_ranges bs sched n a l r, l ≤ p.1 ∧ p.1 ≤ p.2 ∧ p.2 ≤ r := by
  intro n
  induction n with
  | zero =>
    intro a l r hl hr hn p hp
    rw [qsort_parallel_ranges_base bs sched 0 a l r (by omega)] at hp
    simp only [List.mem_singleton] at hp
    subst hp
    exact ⟨le_refl _, hl, le_refl _⟩
  | succ n ih =>
    intro a l r hl hr hn p hp
    by_cases h : l + 2 > r
    · rw [qsort_parallel_ranges_base _ _ _ a l r h] at hp
      simp only [List.mem_singleton] at hp
      subst hp
      exact ⟨le_refl _, hl, le_refl _⟩
    · by_cases hb : r - l < bs
      · rw [qsort_parallel_ranges_small _ _ _ a l r h hb] at hp
        rcases List.mem_cons.1 hp with rfl | hp
        · exact ⟨le_refl _, hl, le_refl _⟩
        · exact qsort_sequential_ranges_within (r - l) a l r hl hr (le_refl _) p hp
      · obtain ⟨a2, ml, hstep, h1, h2, hlen⟩ := pivot_step_range a l r (by omega) hr
        rw [qsort_parallel_ranges_step bs sched n a l r h hb, hstep] at hp
        cases hs : sched l r with
        | true =>
          obtain ⟨s, hpar, _⟩ := qsort_parallel_fuel_eq bs sched a2 l ml n h1 (by omega)
            (by omega)
          simp only [hs, if_true, hpar, List.mem_cons, List.mem_append] at hp
          rcases hp with rfl | hp | hp
          · exact ⟨le_refl _, hl, le_refl _⟩
          · have := ih a2 l ml h1 (by omega) (by omega) p hp
            omega
          · have := ih (sortedRange a2 l ml) (ml + 1) r (by omega)
              (by rw [length_sortedRange a2 l ml h1 (by omega)]; omega) (by omega) p hp
            omega
        | false =>
          obtain ⟨s, hpar, _⟩ := qsort_parallel_fuel_eq bs sched a2 (ml + 1) r n (by omega)
            (by omega) (by omega)
          simp only [hs, Bool.false_eq_true, if_false, hpar, List.mem_cons, List.mem_append]
            at hp
          rcases hp with rfl | hp | hp
          · exact ⟨le_refl _, hl, le_refl _⟩
          · have := ih a2 (ml + 1) r (by omega) (by omega) (by omega) p hp
            omega
          · have := ih (sortedRange a2 (ml + 1) r) l ml h1
              (by rw [length_sortedRange a2 (ml + 1) r (by omega) (by omega)]; omega)
              (by omega) p hp
            omega

/-- C15, index consistency and disjointness: for every array and every range
`0 <= l <= r <= length(a)`, when `r - l >= 2` the split point of the partition step
satisfies `l <= ml <= r - 1`, so that the swap touches no index from `r` on, the sub-ranges
`[l, ml)` and `[ml + 1, r)` lie inside `[l, r)`, share no index and do not hold `ml`; and
every range reached in the recursion of either engine is a valid range inside `[l, r)`. -/
theorem qsort_ranges_consistent (a : List Int) (l r block_size : Nat)
    (sched : Nat → Nat → Bool) (hl : l ≤ r) (hr : r ≤ a.length) :
    (l + 2 ≤ r → ∃ a2 ml, pivot_step a l r = .ok (a2, ml) ∧ a2.length = a.length
      ∧ l ≤ ml ∧ ml ≤ r - 1 ∧ r - 1 < r
      ∧ (l ≤ ml ∧ ml ≤ r ∧ r ≤ a2.length) ∧ (ml + 1 ≤ r ∧ l ≤ ml + 1 ∧ r ≤ a2.length)
      ∧ (∀ i, ¬ ((l ≤ i ∧ i < ml) ∧ (ml + 1 ≤ i ∧ i < r)))
      ∧ ¬ (l ≤ ml ∧ ml < ml) ∧ ¬ (ml + 1 ≤ ml ∧ ml < r)) ∧
    (∀ p ∈ qsort_sequential_ranges (r - l) a l r,
      l ≤ p.1 ∧ p.1 ≤ p.2 ∧ p.2 ≤ r ∧ p.2 ≤ a.length) ∧
    (∀ p ∈ qsort_parallel_ranges block_size sched (r - l) a l r,
      l ≤ p.1 ∧ p.1 ≤ p.2 ∧ p.2 ≤ r ∧ p.2 ≤ a.length) := by
  refine ⟨?_, ?_, ?_⟩
  · intro h2
    obtain ⟨a2, ml, hstep, h1, h3, hlen⟩ := pivot_step_range a l r h2 hr
    exact ⟨a2, ml, hstep, hlen, h1, by omega, by omega, ⟨h1, by omega, by omega⟩,
      ⟨by omega, by omega, by omega⟩, fun i => by omega, by omega, by omega⟩
  · intro p hp
    have := qsort_sequential_ranges_within (r - l) a l r hl hr (le_refl _) p hp
    omega
  · intro p hp
    have := qsort_parallel_ranges_within block_size sched (r - l) a l r hl hr (le_refl _) p hp
    omega

theorem qsort_ranges_consistent_witness :
    (∃ a2 ml, pivot_step [5, 3, 8, 3, 1] 0 5 = .ok (a2, ml)
      ∧ a2.length = ([5, 3, 8, 3, 1] : List Int).length ∧ 0 ≤ ml ∧ ml ≤ 5 - 1) ∧
    (∀ p ∈ qsort_parallel_ranges 1 serial (5 - 0) [5, 3, 8, 3, 1] 0 5,
      0 ≤ p.1 ∧ p.1 ≤ p.2 ∧ p.2 ≤ 5 ∧ p.2 ≤ ([5, 3, 8, 3, 1] : List Int).length) :=
  have h := qsort_ranges_consistent [5, 3, 8, 3, 1] 0 5 1 serial (by decide) (by decide)
  ⟨by
      obtain ⟨a2, ml, h1, h2, h3, h4, _⟩ := h.1 (by decide)
      exact ⟨a2, ml, h1, h2, h3, h4⟩,
    h.2.2⟩

/-! ## The number of spawned tasks -/

theorem partition_loop_all_less (x : Int) :
    ∀ (U Pre Post a : List Int) (first last n : Nat), (∀ y ∈ U, y < x) → U.length < n →
      a = Pre ++ (U ++ Post) → first = Pre.length → last = Pre.length + U.length →
      partition_loop x n false a first last = .ok (a, last) := by
  intro U
  induction U with
  | nil =>
    intro Pre Post a first last n _ hn ha hf hl
    obtain ⟨m, rfl⟩ : ∃ m, n = m + 1 := ⟨n - 1, by omega⟩
    have hfl : first = last := by subst hf; subst hl; simp
    rw [partition_loop_front x m a first last]
    simp [hfl]
  | cons u W ih =>
    intro Pre Post a first last n hU hn ha hf hl
    simp only [List.length_cons] at hn hl
    obtain ⟨m, rfl⟩ : ∃ m, n = m + 1 := ⟨n - 1, by omega⟩
    have hne : first ≠ last := by omega
    have hrd : readAt a first = .ok u := by
      subst ha; exact readAt_mid Pre _ u first hf
    have hux : u < x := hU u (List.mem_cons_self _ _)
    rw [partition_loop_front x m a first last]
    simp only [hne, if_false, hrd, hux, if_true]
    exact ih (Pre ++ [u]) Post a (first + 1) last m
      (fun y hy => hU y (List.mem_cons_of_mem _ hy)) (by omega) (by subst ha; simp)
      (by subst hf; simp) (by subst hl; simp; omega)

/-- When every other element of the range is below the pivot, lines 31-35 (53-57) leave
the array as it is and return `r - 1` as the split point. -/
theorem pivot_step_all_less (x : Int) (M P Q a : List Int) (l r : Nat)
    (ha : a = P ++ (M ++ x :: Q)) (hl : l = P.length) (hr : r = P.length + M.length + 1)
    (hM : ∀ y ∈ M, y < x) : pivot_step a l r = .ok (a, P.length + M.length) := by
  have hrd : readAt a (r - 1) = .ok x := by
    have ha2 : a = (P ++ M) ++ x :: Q := by subst ha; simp
    rw [ha2]; exact readAt_mid _ _ _ _ (by subst hr; simp)
  have hpart : partition a l r x = .ok (a, P.length + M.length) := by
    have hfuel : r - l + 1 = (M.length + 1) + 1 := by omega
    unfold partition
    rw [hfuel, hr, partition_loop_skip_last x x (lt_irrefl x) M P Q a l (P.length + M.length)
      (M.length + 1) (by omega) ha hl rfl]
    exact partition_loop_all_less x M P (x :: Q) a l (P.length + M.length) (M.length + 1) hM
      (by omega) ha hl rfl
  have hsw : swapAt a (r - 1) (P.length + M.length) = .ok a := by
    have ha2 : a = (P ++ M) ++ x :: Q := by subst ha; simp
    rw [ha2]
    exact swapAt_self (P ++ M) Q x _ _ (by subst hr; simp) (by simp)
  simp only [pivot_step, hrd, hpart, hsw]

/-- On a strictly ascending range every partition puts all other elements on the left, so
from the threshold on each level of the recursion spawns one task. -/
theorem qsort_parallel_fuel_ascending (bs : Nat) (sched : Nat → Nat → Bool) (hbs : 2 ≤ bs) :
    ∀ (n : Nat) (M P Q a : List Int) (l r : Nat), M.Sorted (· < ·) →
    M.length ≤ n → a = P ++ (M ++ Q) → l = P.length → r = P.length + M.length →
    qsort_parallel_fuel bs sched n a l r
      = .ok (a, if M.length < bs then 0 else M.length - bs + 1) := by
  intro n
  induction n with
  | zero =>
    intro M P Q a l r _ hn ha hl hr
    have hM : M = [] := List.length_eq_zero.1 (Nat.le_zero.1 hn)
    subst hM
    have h0 : ([] : List Int).length < bs := by simp; omega
    rw [qsort_parallel_fuel_base bs sched 0 a l r (by subst hl; subst hr; simp), if_pos h0]
  | succ n ih =>
    intro M P Q a l r hs hn ha hl hr
    by_cases hb : M.length < bs
    · obtain ⟨s, hres, hbound⟩ :=
        qsort_parallel_fuel_spec bs sched (n + 1) M P Q a l r hn ha hl hr
      have hs0 : s = 0 := hbound.1 (Or.inr hb)
      have hle : M.Sorted (· ≤ ·) := List.Pairwise.imp (fun h => le_of_lt h) hs
      rw [hres, hle.insertionSort_eq, hs0, ← ha]
      simp [hb]
    · rcases List.eq_nil_or_concat M with rfl | ⟨M2, x, rfl⟩
      · simp at hb; omega
      · simp only [List.concat_eq_append, List.length_append, List.length_singleton]
          at hn hr hb ⊢
        rw [List.concat_eq_append] at hs ha
        have hs2 : M2.Sorted (· < ·) := (List.pairwise_append.1 hs).1
        have hM2 : ∀ y ∈ M2, y < x := fun y hy =>
          (List.pairwise_append.1 hs).2.2 y hy x (List.mem_singleton_self x)
        have hstep := pivot_step_all_less x M2 P Q a l r (by subst ha; simp) hl (by omega) hM2
        have hleft := ih M2 P (x :: Q) a l (P.length + M2.length) hs2 (by omega)
          (by subst ha; simp) hl rfl
        have hright : qsort_parallel_fuel bs sched n a (P.length + M2.length + 1) r
            = .ok (a, 0) := qsort_parallel_fuel_base bs sched n a _ r (by omega)
        rw [qsort_parallel_fuel_step bs sched n a l r (by omega) (by omega)]
        cases hsch : sched l r with
        | true =>
          simp only [hstep, hleft, hright, if_true]
          congr 2
          split <;> omega
        | false =>
          simp only [hstep, hleft, hright, Bool.false_eq_true, if_false]
          congr 2
          split <;> omega

theorem ascending_sorted (n : Nat) : (ascending n).Sorted (· < ·) :=
  List.Pairwise.map Int.ofNat (fun _ _ hab => Int.ofNat_lt.2 hab) (List.sorted_lt_range n)

theorem ascending_length (n : Nat) : (ascending n).length = n := by
  simp [ascending]

/-- C16, task-count bound: for every `block_size` `T >= 1`, every schedule and every array
of length `n >= T`, the number of tasks spawned by `qsort_parallel(a, 0, n)` is at most
`n - T + 1`.  For `T >= 2` a strictly ascending array spawns exactly `n - T + 1` tasks, and
there is such an array of every length, so the bound is attained and the number of tasks
can grow linearly in `n`. -/
theorem qsort_parallel_task_bound (a : List Int) (T : Nat) (sched : Nat → Nat → Bool)
    (hT : 1 ≤ T) (hn : T ≤ a.length) :
    (∃ b s, qsort_parallel T sched a 0 a.length = .ok (b, s) ∧ s ≤ a.length - T + 1) ∧
    (2 ≤ T → a.Sorted (· < ·) →
      qsort_parallel T sched a 0 a.length = .ok (a, a.length - T + 1)) ∧
    (2 ≤ T → ∃ d : List Int, d.length = a.length ∧ d.Sorted (· < ·)
      ∧ qsort_parallel T sched d 0 d.length = .ok (d, d.length - T + 1)) := by
  have hasc : ∀ d : List Int, 2 ≤ T → T ≤ d.length → d.Sorted (· < ·) →
      qsort_parallel T sched d 0 d.length = .ok (d, d.length - T + 1) := by
    intro d h2 hd hs
    have h := qsort_parallel_fuel_ascending T sched h2 (d.length - 0) d [] [] d 0 d.length hs
      (by omega) (by simp) rfl (by simp)
    rw [if_neg (by omega)] at h
    exact h
  refine ⟨?_, fun h2 hs => hasc a h2 hn hs, fun h2 => ?_⟩
  · obtain ⟨s, hs, hbound⟩ := qsort_parallel_fuel_eq T sched a 0 a.length (a.length - 0)
      (Nat.zero_le _) (le_refl _) (le_refl _)
    refine ⟨_, s, hs, ?_⟩
    unfold SpawnBound at hbound
    omega
  · exact ⟨ascending a.length, ascending_length _, ascending_sorted _,
      hasc _ h2 (by rw [ascending_length]; exact hn) (ascending_sorted _)⟩

theorem qsort_parallel_task_bound_witness :
    (∃ b s, qsort_parallel 3 serial [4, 1, 6, 2, 9, 3, 7] 0
        ([4, 1, 6, 2, 9, 3, 7] : List Int).length = .ok (b, s)
      ∧ s ≤ ([4, 1, 6, 2, 9, 3, 7] : List Int).length - 3 + 1) ∧
    qsort_parallel 3 serial [1, 2, 3, 4, 5, 6, 7] 0 ([1, 2, 3, 4, 5, 6, 7] : List Int).length
      = .ok ([1, 2, 3, 4, 5, 6, 7], ([1, 2, 3, 4, 5, 6, 7] : List Int).length - 3 + 1) :=
  ⟨(qsort_parallel_task_bound [4, 1, 6, 2, 9, 3, 7] 3 serial (by decide) (by decide)).1,
    (qsort_parallel_task_bound [1, 2, 3, 4, 5, 6, 7] 3 serial (by decide) (by decide)).2.1
      (by decide) (by decide)⟩

end Cw1
